import Mathlib

/-!
Verification development for the Tentai Show generator/solver repository.

The definitions below are shallow embeddings of the C/C++ sources:
 - `src/generator/simple_generator.c` (board state, dot placement, region
   growth, border outlining, Game-ID encoding),
 - `src/solver/seq_solver.cpp`, `src/solver/seq_solver_dfs.cpp`,
   `src/solver/openmp_solver_dfs.cpp`, `src/solver/seq_solver.c` (puzzle
   parsing, forced-tile seeding, move enumeration, Zobrist hashing).

Machine integers are modelled as `Int`/`Nat`; C's truncating division on
`int` is `Int.tdiv`.  Grids are total functions from coordinates, updated
pointwise; loops become folds over the same index ranges in the same order
as the source.
-/

/-! ## Codec (encode_game in simple_generator.c, data decoding in the solvers)

A cell of the internal grid, as the encoder reads it: `none` when the cell
carries no dot, `some b` when it carries a dot whose black flag is `b`.
-/

/-- Flush the run accumulator: what the `while (run > 26)` loop plus the
final `'a' + run - 1` letter in `encode_game` emit, in closed form ('z'
chunks of 26 followed by one letter covering the remainder; see
`flushRun_loop` for the loop-shaped unfolding).  The source only flushes a
nonzero run; we return `[]` at zero. -/
def flushRun (run : Nat) : List Char :=
  if run = 0 then []
  else List.replicate ((run - 1) / 26) 'z' ++ [Char.ofNat ('a'.toNat + (run - 1) % 26)]

/-- One iteration of the `while (run > 26)` loop of `encode_game`. -/
theorem flushRun_loop (run : Nat) (h : 26 < run) :
    flushRun run = 'z' :: flushRun (run - 26) := by
  have h27 : run - 1 = (run - 27) + 26 := by omega
  have h1 : run ≠ 0 := by omega
  have h2 : run - 26 ≠ 0 := by omega
  rw [flushRun, flushRun, if_neg h1, if_neg h2, h27,
    Nat.add_div_right _ (by norm_num), Nat.add_mod_right]
  have h3 : run - 26 - 1 = run - 27 := by omega
  rw [h3, List.replicate_succ]
  simp

/-- The row-major scan of `encode_game`: accumulate a run over non-dot
cells, flush it before each dot letter ('B' black, 'M' white), and flush
the tail at the end. -/
def encodeGo : List (Option Bool) → Nat → List Char
  | [], run => flushRun run
  | none :: cs, run => encodeGo cs (run + 1)
  | some b :: cs, run => flushRun run ++ (if b then 'B' else 'M') :: encodeGo cs 0

/-- `encode_game`, acting on the row-major list of internal-grid cells. -/
def encode_game (cells : List (Option Bool)) : List Char :=
  encodeGo cells 0

/-- The data-decoding scan shared by `Puzzle::fromGameId` and
`parse_game_id`: 'M'/'B' emit a dot at `(pos % sx, pos / sx)` and advance
one cell, letters 'a'..'z' skip 1..26 cells, anything else is ignored. -/
def decodeGo (sx : Nat) : List Char → Nat → List (Nat × Nat × Bool)
  | [], _ => []
  | c :: cs, pos =>
    if c = 'M' then (pos % sx, pos / sx, false) :: decodeGo sx cs (pos + 1)
    else if c = 'B' then (pos % sx, pos / sx, true) :: decodeGo sx cs (pos + 1)
    else if 'a' ≤ c ∧ c ≤ 'z' then decodeGo sx cs (pos + (c.toNat - 'a'.toNat + 1))
    else decodeGo sx cs pos

/-- Decode a Game-ID data segment over a grid of width `sx`. -/
def decodeData (sx : Nat) (data : List Char) : List (Nat × Nat × Bool) :=
  decodeGo sx data 0

/-- The dots a generator board holds, read off its row-major cell list
starting at position `pos`, with the coordinates `(p % sx, p / sx)` the
decoder would assign to them. -/
def dotsFrom (sx : Nat) : List (Option Bool) → Nat → List (Nat × Nat × Bool)
  | [], _ => []
  | none :: cs, pos => dotsFrom sx cs (pos + 1)
  | some b :: cs, pos => (pos % sx, pos / sx, b) :: dotsFrom sx cs (pos + 1)

/-- Look up the colour of a dot of the decoded puzzle at internal
coordinates `(cx, cy)` (first match, as `dotIndexAt` scans). -/
def findDot : List (Nat × Nat × Bool) → Nat → Nat → Option Bool
  | [], _, _ => none
  | (x, y, b) :: ds, cx, cy => if x = cx ∧ y = cy then some b else findDot ds cx cy

/-- Rebuild the row-major cell list of a board of `len` cells starting at
position `pos` from a decoded dot list. -/
def cellsOfDots (sx : Nat) (dl : List (Nat × Nat × Bool)) : Nat → Nat → List (Option Bool)
  | _, 0 => []
  | pos, len + 1 => findDot dl (pos % sx) (pos / sx) :: cellsOfDots sx dl (pos + 1) len

/-- A data segment is well formed for a grid of `n` cells when it is the
encoding of some board of `n` cells — exactly the strings whose runs are
maximal-'z' chunked and whose runs and dots cover the grid. -/
def wellFormedData (n : Nat) (data : List Char) : Prop :=
  ∃ cells : List (Option Bool), cells.length = n ∧ data = encode_game cells

/-! ### Round-trip lemmas for the codec -/

theorem char_toNat_alpha (k : Nat) (hk : k < 26) :
    (Char.ofNat ('a'.toNat + k)).toNat = 'a'.toNat + k := by
  interval_cases k <;> decide

/-- Decoding a lower-case letter for `k + 1` skips advances `pos` by
`k + 1` and emits nothing. -/
theorem decode_letter (sx k : Nat) (hk : k < 26) (cs : List Char) (pos : Nat) :
    decodeGo sx (Char.ofNat ('a'.toNat + k) :: cs) pos = decodeGo sx cs (pos + (k + 1)) := by
  interval_cases k <;>
    (rw [decodeGo, if_neg (by decide), if_neg (by decide), if_pos (by decide)];
     rw [char_toNat_alpha _ (by norm_num)]; norm_num)

/-- Decoding a flushed run of length `r` advances the position by `r`. -/
theorem decode_flush (sx : Nat) (r : Nat) (cs : List Char) (pos : Nat) :
    decodeGo sx (flushRun r ++ cs) pos = decodeGo sx cs (pos + r) := by
  induction r using Nat.strong_induction_on generalizing pos with
  | _ r ih =>
    rcases Nat.lt_or_ge 26 r with h | h
    · rw [flushRun_loop r h, List.cons_append]
      have hz : ('z' : Char) = Char.ofNat ('a'.toNat + 25) := by decide
      rw [hz, decode_letter sx 25 (by norm_num)]
      rw [ih (r - 26) (by omega)]
      congr 1
      omega
    · rcases Nat.eq_zero_or_pos r with h0 | h0
      · subst h0
        rw [flushRun, if_pos rfl, List.nil_append, Nat.add_zero]
      · rw [flushRun, if_neg (by omega)]
        have hd : (r - 1) / 26 = 0 := Nat.div_eq_of_lt (by omega)
        have hm : (r - 1) % 26 = r - 1 := Nat.mod_eq_of_lt (by omega)
        rw [hd, hm, List.replicate_zero, List.nil_append, List.cons_append,
          List.nil_append, decode_letter sx (r - 1) (by omega)]
        congr 1
        omega

/-- Decoding an encoded board recovers exactly the dot cells the board
held, at the internal coordinates the position scan assigns. -/
theorem decode_encodeGo (sx : Nat) (cells : List (Option Bool)) :
    ∀ run pos : Nat, decodeGo sx (encodeGo cells run) pos = dotsFrom sx cells (pos + run) := by
  induction cells with
  | nil =>
    intro run pos
    rw [encodeGo, dotsFrom, ← List.append_nil (flushRun run), decode_flush, decodeGo]
  | cons c cs ih =>
    intro run pos
    match c with
    | none =>
      rw [encodeGo, dotsFrom, ih (run + 1) pos, Nat.add_assoc]
    | some b =>
      rw [encodeGo, dotsFrom, decode_flush]
      cases b
      · rw [if_neg (Bool.false_ne_true), decodeGo, if_pos rfl, ih 0 (pos + run + 1)]
      · rw [if_pos rfl, decodeGo, if_neg (by decide), if_pos rfl, ih 0 (pos + run + 1)]

/-- First round-trip: decode ∘ encode recovers the board's dot set. -/
theorem decode_encode_game (sx : Nat) (cells : List (Option Bool)) :
    decodeData sx (encode_game cells) = dotsFrom sx cells 0 := by
  rw [decodeData, encode_game, decode_encodeGo]

/-- Every decoded dot's coordinates come from a scan position at or past
the starting position. -/
theorem mem_dotsFrom (sx : Nat) (cells : List (Option Bool)) :
    ∀ (pos : Nat) (x y : Nat) (b : Bool), (x, y, b) ∈ dotsFrom sx cells pos →
      ∃ q, pos ≤ q ∧ x = q % sx ∧ y = q / sx := by
  induction cells with
  | nil => intro pos x y b h; simp [dotsFrom] at h
  | cons c cs ih =>
    intro pos x y b h
    match c with
    | none =>
      obtain ⟨q, hq, hx, hy⟩ := ih (pos + 1) x y b (by rwa [dotsFrom] at h)
      exact ⟨q, by omega, hx, hy⟩
    | some b0 =>
      rw [dotsFrom, List.mem_cons] at h
      rcases h with h | h
      · exact ⟨pos, le_refl _, by simp_all, by simp_all⟩
      · obtain ⟨q, hq, hx, hy⟩ := ih (pos + 1) x y b h
        exact ⟨q, by omega, hx, hy⟩

theorem findDot_eq_none (dl : List (Nat × Nat × Bool)) (cx cy : Nat)
    (h : ∀ e ∈ dl, ¬(e.1 = cx ∧ e.2.1 = cy)) : findDot dl cx cy = none := by
  induction dl with
  | nil => rfl
  | cons e ds ih =>
    obtain ⟨x, y, b⟩ := e
    rw [findDot, if_neg (h (x, y, b) (List.mem_cons_self _ _))]
    exact ih fun e he => h e (List.mem_cons_of_mem _ he)

/-- Positions determine coordinates injectively on a positive-width grid. -/
theorem pos_of_coords (sx : Nat) (p q : Nat)
    (hm : p % sx = q % sx) (hd : p / sx = q / sx) : p = q := by
  conv_lhs => rw [← Nat.div_add_mod p sx]
  rw [hm, hd, Nat.div_add_mod]

/-- An entry whose position lies before the rebuilt window never matches a
query, so it can be dropped. -/
theorem cellsOfDots_drop (sx : Nat) (e : Nat × Nat × Bool) (dl : List (Nat × Nat × Bool)) :
    ∀ (len pos : Nat), (∀ q, pos ≤ q → ¬(e.1 = q % sx ∧ e.2.1 = q / sx)) →
      cellsOfDots sx (e :: dl) pos len = cellsOfDots sx dl pos len := by
  intro len
  induction len with
  | zero => intro pos _; rfl
  | succ n ih =>
    intro pos h
    obtain ⟨x, y, b⟩ := e
    rw [cellsOfDots, cellsOfDots, findDot, if_neg (h pos (le_refl _)),
      ih (pos + 1) (fun q hq => h q (by omega))]

/-- Rebuilding the cell window from the decoded dot list recovers the
original cells. -/
theorem cellsOfDots_dotsFrom (sx : Nat) (cells : List (Option Bool)) :
    ∀ pos : Nat, cellsOfDots sx (dotsFrom sx cells pos) pos cells.length = cells := by
  induction cells with
  | nil => intro pos; rfl
  | cons c cs ih =>
    intro pos
    have hnomatch : ∀ q, pos + 1 ≤ q → ¬(pos % sx = q % sx ∧ pos / sx = q / sx) := by
      intro q hq ⟨hm, hd⟩
      have := pos_of_coords sx pos q hm hd
      omega
    match c with
    | none =>
      rw [List.length_cons, dotsFrom, cellsOfDots]
      have hnone : findDot (dotsFrom sx cs (pos + 1)) (pos % sx) (pos / sx) = none := by
        apply findDot_eq_none
        intro e he ⟨hx, hy⟩
        obtain ⟨x, y, b⟩ := e
        obtain ⟨q, hq, hqx, hqy⟩ := mem_dotsFrom sx cs (pos + 1) x y b he
        exact hnomatch q hq ⟨by simp_all, by simp_all⟩
      rw [hnone, ih (pos + 1)]
    | some b =>
      rw [List.length_cons, dotsFrom, cellsOfDots, findDot, if_pos ⟨rfl, rfl⟩]
      rw [cellsOfDots_drop sx _ _ cs.length (pos + 1) (fun q hq => hnomatch q hq),
        ih (pos + 1)]

/-- Second round-trip: encode ∘ decode is the identity on well-formed data
segments. -/
theorem encode_decode_game (sx n : Nat) (data : List Char)
    (hwf : wellFormedData n data) :
    encode_game (cellsOfDots sx (decodeData sx data) 0 n) = data := by
  obtain ⟨cells, hlen, rfl⟩ := hwf
  rw [decode_encode_game, ← hlen, cellsOfDots_dotsFrom sx cells 0]

/-- C4: encode∘decode on any generator board reproduces the board's dot
set with its internal coordinates and colours, and decode∘encode is the
identity on well-formed data segments (those whose runs are maximal-'z'
chunked and cover the internal grid). -/
theorem claim_C4_theorem :
    (∀ (sx : Nat) (cells : List (Option Bool)),
       decodeData sx (encode_game cells) = dotsFrom sx cells 0) ∧
    (∀ (sx sy : Nat) (data : List Char), wellFormedData (sx * sy) data →
       encode_game (cellsOfDots sx (decodeData sx data) 0 (sx * sy)) = data) :=
  ⟨decode_encode_game, fun sx sy data h => encode_decode_game sx (sx * sy) data h⟩

/-- Witness for C4 on the 2×1 board (internal 5×3) whose data segment is
"bMl": a dot at scan position 2 with runs of 2 and 12 around it. -/
theorem claim_C4_theorem_witness :
    wellFormedData (5 * 3) ['b', 'M', 'l'] ∧
    encode_game (cellsOfDots 5 (decodeData 5 ['b', 'M', 'l']) 0 (5 * 3)) =
      ['b', 'M', 'l'] :=
  ⟨⟨[none, none, some false] ++ List.replicate 12 none, by decide, by decide⟩,
   claim_C4_theorem.2 5 3 ['b', 'M', 'l']
     ⟨[none, none, some false] ++ List.replicate 12 none, by decide, by decide⟩⟩

/-! ## Solver data model (seq_solver.cpp and the DFS/OpenMP variants)

A parsed puzzle holds the user dimensions and the dot list in internal
coordinates; a search state holds the W×H tile grid (−1 for unassigned,
otherwise the owning dot index), the filled-tile count and the Zobrist
hash.  The Zobrist table is a parameter `zt : Nat → Nat → Nat`, indexed by
cell index `ty*w+tx` and dot index, standing for the randomly initialised
`zobrist_` table. -/

structure Puz where
  w : Nat
  h : Nat
  dots : List (Int × Int × Bool)
deriving DecidableEq

/-- `p_.dots()[d]` (out-of-range reads, impossible in a run, default to a
dummy dot). -/
def dotAt (p : Puz) (d : Nat) : Int × Int × Bool := p.dots.getD d (0, 0, false)

structure SState where
  grid : Int → Int → Int
  filled : Int
  hash : Nat

/-- Pointwise grid update, the effect of `grid_[y][x] = v`. -/
def updG (g : Int → Int → Int) (x y v : Int) : Int → Int → Int :=
  fun a b => if a = x ∧ b = y then v else g a b

theorem updG_eval (g : Int → Int → Int) (x y v a b : Int) :
    updG g x y v a b = if a = x ∧ b = y then v else g a b := rfl

/-- `Solver::inTileBounds`. -/
def inTileBounds (p : Puz) (tx ty : Int) : Bool :=
  decide (0 ≤ tx ∧ tx < (p.w : Int) ∧ 0 ≤ ty ∧ ty < (p.h : Int))

/-- `Solver::isValidTile`: in bounds and unassigned. -/
def isValidTile (p : Puz) (s : Int → Int → Int) (tx ty : Int) : Bool :=
  inTileBounds p tx ty && decide (s tx ty = -1)

/-- The Zobrist table entry for tile `(tx,ty)` owned by dot `d`:
`zobrist_[ty * w_ + tx][d]`. -/
def cellZ (zt : Nat → Nat → Nat) (p : Puz) (tx ty d : Int) : Nat :=
  zt (ty * p.w + tx).toNat d.toNat

/-- `Solver::getSymmetricTile`: mirror the tile's internal center about the
dot and convert back to tile coordinates (C's truncating division). -/
def getSymmetricTile (dotx doty tx ty : Int) : Int × Int :=
  ((2 * dotx - (tx * 2 + 1) - 1).tdiv 2, (2 * doty - (ty * 2 + 1) - 1).tdiv 2)

/-- The state all solver variants start from: empty grid, zero counters. -/
def initSState : SState := { grid := fun _ _ => -1, filled := 0, hash := 0 }

/-- `Solver::tryFill` (identical in seq_solver.cpp, seq_solver_dfs.cpp and
openmp_solver_dfs.cpp): out-of-bounds targets are ignored, empty targets
are filled for dot `d` with hash and count updates, occupied targets
succeed only when already owned by `d`. -/
def tryFill (p : Puz) (zt : Nat → Nat → Nat) (s : SState) (tx ty d : Int) : Bool × SState :=
  if inTileBounds p tx ty = false then (true, s)
  else if s.grid tx ty = -1 then
    (true, { grid := updG s.grid tx ty d,
             filled := s.filled + 1,
             hash := s.hash ^^^ cellZ zt p tx ty d })
  else (decide (s.grid tx ty = d), s)

/-- Short-circuit sequencing of two fallible fills, as C's `||` of negated
calls: the second call runs only when the first succeeded. -/
def andThen (r : Bool × SState) (f : SState → Bool × SState) : Bool × SState :=
  if r.1 then f r.2 else (false, r.2)

/-- One dot's case split in `Solver::seedForcedTiles`: a tile-center dot
forces one tile, an edge dot two, a vertex dot four. -/
def seedDot (p : Puz) (zt : Nat → Nat → Nat) (d : Nat) (s : SState) : Bool × SState :=
  let dp := dotAt p d
  let dx := dp.1
  let dy := dp.2.1
  if (dx % 2 ≠ 0) ∧ (dy % 2 ≠ 0) then
    tryFill p zt s ((dx - 1).tdiv 2) ((dy - 1).tdiv 2) (d : Int)
  else if (dx % 2 ≠ 0) ∧ ¬(dy % 2 ≠ 0) then
    andThen (tryFill p zt s ((dx - 1).tdiv 2) (dy.tdiv 2 - 1) (d : Int))
      (fun s1 => tryFill p zt s1 ((dx - 1).tdiv 2) (dy.tdiv 2) (d : Int))
  else if ¬(dx % 2 ≠ 0) ∧ (dy % 2 ≠ 0) then
    andThen (tryFill p zt s (dx.tdiv 2 - 1) ((dy - 1).tdiv 2) (d : Int))
      (fun s1 => tryFill p zt s1 (dx.tdiv 2) ((dy - 1).tdiv 2) (d : Int))
  else
    andThen (tryFill p zt s (dx.tdiv 2 - 1) (dy.tdiv 2 - 1) (d : Int)) (fun s1 =>
      andThen (tryFill p zt s1 (dx.tdiv 2 - 1) (dy.tdiv 2) (d : Int)) (fun s2 =>
        andThen (tryFill p zt s2 (dx.tdiv 2) (dy.tdiv 2 - 1) (d : Int)) (fun s3 =>
          tryFill p zt s3 (dx.tdiv 2) (dy.tdiv 2) (d : Int))))

/-- `Solver::seedForcedTiles` over all dots in order; `none` is the
failure return that makes the solver report the puzzle unsolvable. -/
def seedForcedTiles (p : Puz) (zt : Nat → Nat → Nat) : Option SState :=
  (List.range p.dots.length).foldl
    (fun acc d =>
      match acc with
      | none => none
      | some s =>
        let r := seedDot p zt d s
        if r.1 then some r.2 else none)
    (some initSState)

/-- The tile scan order `for (y...) for (x...)` shared by the drivers. -/
def tilesList (p : Puz) : List (Int × Int) :=
  (List.range p.h).flatMap fun y => (List.range p.w).map fun x => (Int.ofNat x, Int.ofNat y)

/-- The acceptance check `allDotsUsed`: every dot index occurs in the
grid. -/
def allDotsUsed (p : Puz) (s : SState) : Bool :=
  (List.range p.dots.length).all fun d =>
    (tilesList p).any fun t => decide (s.grid t.1 t.2 = (d : Int))

/-- The neighbour offsets `{{1,0},{-1,0},{0,1},{0,-1}}`. -/
def dirs4 : List (Int × Int) := [(1, 0), (-1, 0), (0, 1), (0, -1)]

/-! ### BFS driver of seq_solver.cpp -/

/-- The iteration space of the expansion loops in `Solver::solve`: tiles in
row-major order, the four directions inside. -/
def bfsSteps (p : Puz) : List ((Int × Int) × (Int × Int)) :=
  (tilesList p).flatMap fun t => dirs4.map fun dir => (t, dir)

/-- `visited_.insert(next.hash).second` guarding `q.push(next)`: the
accumulator carries the pending successor list and the visited set. -/
def pushIfNew (acc : List SState × List Nat) (next : SState) : List SState × List Nat :=
  if next.hash ∈ acc.2 then acc else (acc.1 ++ [next], acc.2 ++ [next.hash])

/-- One iteration of the expansion loops of `Solver::solve` (seq_solver.cpp):
from an assigned tile `(x,y)` owned by `d`, try the neighbour across `dir`
together with its symmetric partner about `d`'s dot. -/
def bfsStep (p : Puz) (zt : Nat → Nat → Nat) (s : SState)
    (acc : List SState × List Nat) (step : (Int × Int) × (Int × Int)) :
    List SState × List Nat :=
  let x := step.1.1
  let y := step.1.2
  let dir := step.2
  if s.grid x y = -1 then acc
  else
    let d := s.grid x y
    let dp := dotAt p d.toNat
    let nx := x + dir.1
    let ny := y + dir.2
    if isValidTile p s.grid nx ny = false then acc
    else
      let sym := getSymmetricTile dp.1 dp.2.1 nx ny
      if isValidTile p s.grid sym.1 sym.2 || decide (nx = sym.1 ∧ ny = sym.2) then
        let next1 : SState :=
          { grid := updG s.grid nx ny d,
            filled := s.filled + 1,
            hash := s.hash ^^^ cellZ zt p nx ny d }
        if decide (nx ≠ sym.1 ∨ ny ≠ sym.2) then
          if next1.grid sym.1 sym.2 = -1 then
            pushIfNew acc
              { grid := updG next1.grid sym.1 sym.2 d,
                filled := next1.filled + 1,
                hash := next1.hash ^^^ cellZ zt p sym.1 sym.2 d }
          else acc
        else pushIfNew acc next1
      else acc

/-- Expansion of one dequeued state: all successors whose hash was newly
inserted, along with the updated visited set. -/
def bfsExpand (p : Puz) (zt : Nat → Nat → Nat) (s : SState) (visited : List Nat) :
    List SState × List Nat :=
  (bfsSteps p).foldl (bfsStep p zt s) ([], visited)

/-- The `while (!q.empty())` loop of `Solver::solve`, with explicit fuel
standing for the number of dequeue iterations still allowed. -/
def bfsLoop (p : Puz) (zt : Nat → Nat → Nat) : Nat → List SState → List Nat → Option SState
  | 0, _, _ => none
  | _ + 1, [], _ => none
  | fuel + 1, s :: rest, vis =>
    if decide (s.filled = ((p.w * p.h : Nat) : Int)) then
      if allDotsUsed p s then some s else bfsLoop p zt fuel rest vis
    else
      let r := bfsExpand p zt s vis
      bfsLoop p zt fuel (rest ++ r.1) r.2

/-- `Solver::solve` of seq_solver.cpp: seed the forced tiles (reporting
failure as `none`, in which case no search runs), then BFS. -/
def solveBFS (p : Puz) (zt : Nat → Nat → Nat) (fuel : Nat) : Option SState :=
  match seedForcedTiles p zt with
  | none => none
  | some init => bfsLoop p zt fuel [init] [init.hash]

/-! ### Game-ID parsing (Puzzle::fromGameId) -/

/-- Accumulate a leading run of decimal digits. -/
def parseDigitsGo : List Char → Nat → Nat
  | [], acc => acc
  | c :: cs, acc =>
    if c.isDigit then parseDigitsGo cs (acc * 10 + (c.toNat - '0'.toNat)) else acc

/-- The use `std::stoi` is put to here: parse a leading decimal numeral,
failing when none is present.  (stoi's sign/whitespace handling is not
exercised by the Game-IDs considered.) -/
def parseNatDigits (l : List Char) : Option Nat :=
  match l with
  | [] => none
  | c :: _ => if c.isDigit then some (parseDigitsGo l 0) else none

/-- `Puzzle::fromGameId` (identical across the C++ solver variants): split
at the first ':' and 'x', parse the dimensions, decode the data over the
internal grid of width `2*w + 1`. -/
def fromGameId (s : List Char) : Option Puz :=
  match s.findIdx? (· = ':') with
  | none => none
  | some colon =>
    match s.findIdx? (· = 'x') with
    | none => none
    | some xpos =>
      if colon < xpos then none
      else
        match parseNatDigits (s.take xpos),
            parseNatDigits ((s.drop (xpos + 1)).take (colon - (xpos + 1))) with
        | some w, some h =>
          some ⟨w, h,
            (decodeData (2 * w + 1) (s.drop (colon + 1))).map
              (fun e => ((e.1 : Int), (e.2.1 : Int), e.2.2))⟩
        | _, _ => none

/-! ### The pre-fill of the C BFS solver (solve in seq_solver.c)

Unlike `seedForcedTiles`, the C variant pre-fills only dots whose both
internal coordinates are odd (tile centers); edge and vertex dots are not
seeded. -/

def cSolvePrefill (p : Puz) (zt : Nat → Nat → Nat) : Option SState :=
  (List.range p.dots.length).foldl
    (fun acc i =>
      match acc with
      | none => none
      | some s =>
        let dp := dotAt p i
        if decide (dp.1 % 2 ≠ 0) && decide (dp.2.1 % 2 ≠ 0) then
          let tx := (dp.1 - 1).tdiv 2
          let ty := (dp.2.1 - 1).tdiv 2
          if s.grid tx ty = -1 then
            some { grid := updG s.grid tx ty (i : Int),
                   filled := s.filled + 1,
                   hash := s.hash ^^^ cellZ zt p tx ty (i : Int) }
          else none
        else some s)
    (some initSState)

/-- The tiles a dot's cell class forces, as enumerated by the branches of
`seedForcedTiles`: one tile for a center dot, two for an edge dot, four
for a vertex dot. -/
def forcedTiles (dxy : Int × Int) : List (Int × Int) :=
  let dx := dxy.1
  let dy := dxy.2
  if dx % 2 ≠ 0 then
    if dy % 2 ≠ 0 then [((dx - 1).tdiv 2, (dy - 1).tdiv 2)]
    else [((dx - 1).tdiv 2, dy.tdiv 2 - 1), ((dx - 1).tdiv 2, dy.tdiv 2)]
  else if dy % 2 ≠ 0 then
    [(dx.tdiv 2 - 1, (dy - 1).tdiv 2), (dx.tdiv 2, (dy - 1).tdiv 2)]
  else
    [(dx.tdiv 2 - 1, dy.tdiv 2 - 1), (dx.tdiv 2 - 1, dy.tdiv 2),
     (dx.tdiv 2, dy.tdiv 2 - 1), (dx.tdiv 2, dy.tdiv 2)]

/-- An all-zero stand-in Zobrist table, used for concrete evaluations. -/
def ztZero : Nat → Nat → Nat := fun _ _ => 0

/-- A 2×1 puzzle whose single white dot sits on the vertical edge at
internal (2,1), between tiles (0,0) and (1,0). -/
def pEdge : Puz := ⟨2, 1, [(2, 1, false)]⟩

/-- A 1×1 puzzle whose single white dot sits at internal (0,0) — the
corner vertex of the grid, three of whose four forced tiles fall outside
the board. -/
def p00 : Puz := ⟨1, 1, [(0, 0, false)]⟩

/-! ### Properties of the seeding pass -/

/-- A sequence of short-circuited `tryFill` calls for one dot, the common
shape of the four branches of `seedForcedTiles`. -/
def fillSeq (p : Puz) (zt : Nat → Nat → Nat) (s : SState) (d : Int) :
    List (Int × Int) → Bool × SState
  | [] => (true, s)
  | t :: ts => andThen (tryFill p zt s t.1 t.2 d) (fun s1 => fillSeq p zt s1 d ts)

theorem andThen_pure (r : Bool × SState) : andThen r (fun s1 => (true, s1)) = r := by
  rcases r with ⟨b, s⟩
  cases b <;> rfl

theorem andThen_congr (r : Bool × SState) (f g : SState → Bool × SState)
    (h : ∀ s, f s = g s) : andThen r f = andThen r g := by
  rcases r with ⟨b, s⟩
  cases b <;> simp [andThen, h]

/-- Each branch of `seedForcedTiles` is the fill sequence over the tiles
its dot's cell class forces. -/
theorem seedDot_eq_fillSeq (p : Puz) (zt : Nat → Nat → Nat) (d : Nat) (s : SState) :
    seedDot p zt d s =
      fillSeq p zt s (d : Int) (forcedTiles ((dotAt p d).1, (dotAt p d).2.1)) := by
  by_cases hx : (dotAt p d).1 % 2 ≠ 0 <;> by_cases hy : (dotAt p d).2.1 % 2 ≠ 0 <;>
    · simp [seedDot, forcedTiles, hx, hy, fillSeq]
      first
      | rw [andThen_pure]
      | (refine andThen_congr _ _ _ fun s1 => ?_
         first
         | rw [andThen_pure]
         | (refine andThen_congr _ _ _ fun s2 => ?_
            first
            | rw [andThen_pure]
            | (refine andThen_congr _ _ _ fun s3 => ?_
               rw [andThen_pure])))

/-- `tryFill` never changes an already-assigned cell. -/
theorem tryFill_preserves (p : Puz) (zt : Nat → Nat → Nat) (s : SState)
    (tx ty d a b : Int) (h : s.grid a b ≠ -1) :
    ((tryFill p zt s tx ty d).2).grid a b = s.grid a b := by
  rw [tryFill]
  by_cases hb : inTileBounds p tx ty = false
  · rw [if_pos hb]
  · rw [if_neg hb]
    by_cases he : s.grid tx ty = -1
    · rw [if_pos he]
      show updG s.grid tx ty d a b = s.grid a b
      rw [updG]
      by_cases hab : a = tx ∧ b = ty
      · exact absurd (hab.1 ▸ hab.2 ▸ he) h
      · rw [if_neg hab]
    · rw [if_neg he]

/-- A successful in-bounds `tryFill` leaves the target owned by `d`. -/
theorem tryFill_post (p : Puz) (zt : Nat → Nat → Nat) (s : SState) (tx ty d : Int)
    (hok : (tryFill p zt s tx ty d).1 = true) (hb : inTileBounds p tx ty = true) :
    ((tryFill p zt s tx ty d).2).grid tx ty = d := by
  rw [tryFill] at hok ⊢
  rw [if_neg (by simp [hb])] at hok ⊢
  by_cases he : s.grid tx ty = -1
  · rw [if_pos he] at hok ⊢
    show updG s.grid tx ty d tx ty = d
    rw [updG, if_pos ⟨rfl, rfl⟩]
  · rw [if_neg he] at hok ⊢
    exact of_decide_eq_true hok

/-- A fill sequence never changes an already-assigned cell, whether or not
it succeeds. -/
theorem fillSeq_preserves (p : Puz) (zt : Nat → Nat → Nat) (d : Int) :
    ∀ (ts : List (Int × Int)) (s : SState) (a b : Int), s.grid a b ≠ -1 →
      ((fillSeq p zt s d ts).2).grid a b = s.grid a b := by
  intro ts
  induction ts with
  | nil => intro s a b _; rfl
  | cons t ts ih =>
    intro s a b h
    rw [fillSeq, andThen]
    by_cases hok : (tryFill p zt s t.1 t.2 d).1 = true
    · rw [if_pos hok]
      have h1 := tryFill_preserves p zt s t.1 t.2 d a b h
      rw [ih _ a b (by rw [h1]; exact h), h1]
    · rw [if_neg hok]
      exact tryFill_preserves p zt s t.1 t.2 d a b h

/-- A successful fill sequence owns every in-bounds tile it was asked to
fill. -/
theorem fillSeq_post (p : Puz) (zt : Nat → Nat → Nat) (d : Int) (hd : d ≠ -1) :
    ∀ (ts : List (Int × Int)) (s : SState), (fillSeq p zt s d ts).1 = true →
      ∀ t ∈ ts, inTileBounds p t.1 t.2 = true →
        ((fillSeq p zt s d ts).2).grid t.1 t.2 = d := by
  intro ts
  induction ts with
  | nil => intro s _ t ht; simp at ht
  | cons u ts ih =>
    intro s hok t ht hb
    rw [fillSeq, andThen] at hok ⊢
    by_cases h1 : (tryFill p zt s u.1 u.2 d).1 = true
    · rw [if_pos h1] at hok ⊢
      rcases List.mem_cons.mp ht with h | h
      · subst h
        have hpost := tryFill_post p zt s t.1 t.2 d h1 hb
        rw [fillSeq_preserves p zt d ts _ t.1 t.2 (by rw [hpost]; exact hd), hpost]
      · exact ih _ hok t h hb
    · rw [if_neg h1] at hok
      exact absurd hok Bool.false_ne_true

/-- The seeding fold restricted to the first `n` dots. -/
def seedUpTo (p : Puz) (zt : Nat → Nat → Nat) (n : Nat) : Option SState :=
  (List.range n).foldl
    (fun acc d =>
      match acc with
      | none => none
      | some s =>
        let r := seedDot p zt d s
        if r.1 then some r.2 else none)
    (some initSState)

theorem seedForcedTiles_eq_upTo (p : Puz) (zt : Nat → Nat → Nat) :
    seedForcedTiles p zt = seedUpTo p zt p.dots.length := rfl

theorem seedUpTo_succ (p : Puz) (zt : Nat → Nat → Nat) (n : Nat) :
    seedUpTo p zt (n + 1) =
      match seedUpTo p zt n with
      | none => none
      | some s => if (seedDot p zt n s).1 then some (seedDot p zt n s).2 else none := by
  rw [seedUpTo, seedUpTo, List.range_succ, List.foldl_append, List.foldl_cons, List.foldl_nil]

/-- `seedDot` never changes an already-assigned cell. -/
theorem seedDot_preserves (p : Puz) (zt : Nat → Nat → Nat) (d : Nat) (s : SState)
    (a b : Int) (h : s.grid a b ≠ -1) :
    ((seedDot p zt d s).2).grid a b = s.grid a b := by
  rw [seedDot_eq_fillSeq]
  exact fillSeq_preserves p zt _ _ s a b h

/-- After a successful seeding of the first `n` dots, every in-bounds
forced tile of every seeded dot is owned by that dot. -/
theorem seedUpTo_post (p : Puz) (zt : Nat → Nat → Nat) :
    ∀ (n : Nat) (s : SState), seedUpTo p zt n = some s →
      ∀ d, d < n → ∀ t ∈ forcedTiles ((dotAt p d).1, (dotAt p d).2.1),
        inTileBounds p t.1 t.2 = true → s.grid t.1 t.2 = (d : Int) := by
  intro n
  induction n with
  | zero => intro s _ d hd; omega
  | succ n ih =>
    intro s hs d hd t ht hb
    rw [seedUpTo_succ] at hs
    match hs0 : seedUpTo p zt n with
    | none => rw [hs0] at hs; exact absurd hs (by simp)
    | some s0 =>
      rw [hs0] at hs
      have hs1 : (if (seedDot p zt n s0).1 = true then some (seedDot p zt n s0).2
          else none) = some s := hs
      by_cases hok : (seedDot p zt n s0).1 = true
      · rw [if_pos hok] at hs1
        have hs2 : s = (seedDot p zt n s0).2 := by
          exact (Option.some_injective _ hs1).symm
        rcases Nat.lt_succ_iff_lt_or_eq.mp hd with h | h
        · have hprev := ih s0 hs0 d h t ht hb
          rw [hs2, seedDot_preserves p zt n s0 t.1 t.2 (by rw [hprev]; omega), hprev]
        · subst h
          rw [hs2, seedDot_eq_fillSeq]
          rw [seedDot_eq_fillSeq] at hok
          exact fillSeq_post p zt _ (by omega) _ s0 hok t ht hb
      · rw [if_neg hok] at hs1
        exact absurd hs1 (by simp)

/-- The C pre-fill restricted to the first `n` dots. -/
def cSeedUpTo (p : Puz) (zt : Nat → Nat → Nat) (n : Nat) : Option SState :=
  (List.range n).foldl
    (fun acc i =>
      match acc with
      | none => none
      | some s =>
        let dp := dotAt p i
        if decide (dp.1 % 2 ≠ 0) && decide (dp.2.1 % 2 ≠ 0) then
          let tx := (dp.1 - 1).tdiv 2
          let ty := (dp.2.1 - 1).tdiv 2
          if s.grid tx ty = -1 then
            some { grid := updG s.grid tx ty (i : Int),
                   filled := s.filled + 1,
                   hash := s.hash ^^^ cellZ zt p tx ty (i : Int) }
          else none
        else some s)
    (some initSState)

theorem cSolvePrefill_eq_upTo (p : Puz) (zt : Nat → Nat → Nat) :
    cSolvePrefill p zt = cSeedUpTo p zt p.dots.length := rfl

/-- Every cell the C pre-fill assigns is the center tile of a dot whose
internal coordinates are both odd; edge and vertex dots are never
seeded. -/
theorem cSeedUpTo_centers (p : Puz) (zt : Nat → Nat → Nat) :
    ∀ (n : Nat) (s : SState), cSeedUpTo p zt n = some s →
      ∀ x y : Int, s.grid x y ≠ -1 →
        ∃ d, d < n ∧ (dotAt p d).1 % 2 ≠ 0 ∧ (dotAt p d).2.1 % 2 ≠ 0 ∧
          x = ((dotAt p d).1 - 1).tdiv 2 ∧ y = ((dotAt p d).2.1 - 1).tdiv 2 := by
  intro n
  induction n with
  | zero =>
    intro s hs x y hxy
    have : s = initSState := (Option.some_injective _ hs.symm)
    rw [this] at hxy
    exact absurd rfl hxy
  | succ n ih =>
    intro s hs x y hxy
    rw [cSeedUpTo, List.range_succ, List.foldl_append, List.foldl_cons,
      List.foldl_nil] at hs
    rw [show (List.range n).foldl _ (some initSState) = cSeedUpTo p zt n from rfl] at hs
    match hs0 : cSeedUpTo p zt n with
    | none => rw [hs0] at hs; exact absurd hs (by simp)
    | some s0 =>
      rw [hs0] at hs
      by_cases hc : (decide ((dotAt p n).1 % 2 ≠ 0) && decide ((dotAt p n).2.1 % 2 ≠ 0)) = true
      · have hs1 : (if s0.grid (((dotAt p n).1 - 1).tdiv 2) (((dotAt p n).2.1 - 1).tdiv 2) = -1
            then some ({ grid := updG s0.grid (((dotAt p n).1 - 1).tdiv 2)
                                  (((dotAt p n).2.1 - 1).tdiv 2) (n : Int),
                         filled := s0.filled + 1,
                         hash := s0.hash ^^^ cellZ zt p (((dotAt p n).1 - 1).tdiv 2)
                                  (((dotAt p n).2.1 - 1).tdiv 2) (n : Int) } : SState)
            else none) = some s := by
          rw [← hs]
          simp only [hc, if_true]
        by_cases he : s0.grid (((dotAt p n).1 - 1).tdiv 2) (((dotAt p n).2.1 - 1).tdiv 2) = -1
        · rw [if_pos he] at hs1
          have hs2 := (Option.some_injective _ hs1)
          rw [← hs2] at hxy
          simp only at hxy
          rw [updG] at hxy
          by_cases hab : x = ((dotAt p n).1 - 1).tdiv 2 ∧ y = ((dotAt p n).2.1 - 1).tdiv 2
          · have hc2 : (dotAt p n).1 % 2 ≠ 0 ∧ (dotAt p n).2.1 % 2 ≠ 0 := by
              simpa using hc
            exact ⟨n, by omega, hc2.1, hc2.2, hab.1, hab.2⟩
          · rw [if_neg hab] at hxy
            obtain ⟨d, hd, h1, h2, h3, h4⟩ := ih s0 hs0 x y hxy
            exact ⟨d, by omega, h1, h2, h3, h4⟩
        · rw [if_neg he] at hs1
          exact absurd hs1 (by simp)
      · have hs1 : some s0 = some s := by
          rw [← hs]
          simp only [hc, if_false, Bool.false_eq_true]
        have := Option.some_injective _ hs1
        rw [← this] at hxy
        obtain ⟨d, hd, h1, h2, h3, h4⟩ := ih s0 hs0 x y hxy
        exact ⟨d, by omega, h1, h2, h3, h4⟩

/-- C2 — counterexample to the claim as stated: the sequential C BFS
solver is a solver variant, yet on a puzzle whose only dot lies on an edge
(internal (2,1), forcing tiles (0,0) and (1,0)) its pre-fill pass assigns
nothing: both forced tiles are still unassigned when search starts. -/
theorem claim_C2_cex :
    (0, 0) ∈ forcedTiles ((2 : Int), (1 : Int)) ∧
    pEdge.dots = [(2, 1, false)] ∧
    inTileBounds pEdge 0 0 = true ∧
    cSolvePrefill pEdge ztZero = some initSState ∧
    initSState.grid 0 0 = -1 ∧ initSState.grid 1 0 = -1 :=
  ⟨by decide, rfl, rfl, rfl, rfl, rfl⟩

/-- C2 (amended): the C++ variants' `seedForcedTiles` pre-assigns, for
every dot, every in-bounds tile forced by the dot's cell class (one for a
center dot, two for an edge dot, four for a vertex dot), and a failed
seeding makes the solver return without searching; the C variants pre-fill
only tiles of dots at tile centers. -/
theorem claim_C2_theorem :
    (∀ (p : Puz) (zt : Nat → Nat → Nat) (s : SState), seedForcedTiles p zt = some s →
       ∀ d, d < p.dots.length →
         ∀ t ∈ forcedTiles ((dotAt p d).1, (dotAt p d).2.1),
           inTileBounds p t.1 t.2 = true → s.grid t.1 t.2 = (d : Int)) ∧
    (∀ (p : Puz) (zt : Nat → Nat → Nat) (fuel : Nat),
       seedForcedTiles p zt = none → solveBFS p zt fuel = none) ∧
    (∀ (p : Puz) (zt : Nat → Nat → Nat) (s : SState), cSolvePrefill p zt = some s →
       ∀ x y : Int, s.grid x y ≠ -1 →
         ∃ d, d < p.dots.length ∧ (dotAt p d).1 % 2 ≠ 0 ∧ (dotAt p d).2.1 % 2 ≠ 0 ∧
           x = ((dotAt p d).1 - 1).tdiv 2 ∧ y = ((dotAt p d).2.1 - 1).tdiv 2) := by
  refine ⟨?_, ?_, ?_⟩
  · intro p zt s hs
    rw [seedForcedTiles_eq_upTo] at hs
    exact seedUpTo_post p zt p.dots.length s hs
  · intro p zt fuel h
    rw [solveBFS, h]
  · intro p zt s hs
    rw [cSolvePrefill_eq_upTo] at hs
    exact cSeedUpTo_centers p zt p.dots.length s hs

/-- Witness for C2: on the edge-dot puzzle the C++ seeding assigns both
forced tiles to dot 0. -/
theorem claim_C2_theorem_witness :
    ∃ s, seedForcedTiles pEdge ztZero = some s ∧ s.grid 0 0 = 0 ∧ s.grid 1 0 = 0 := by
  refine ⟨_, rfl, ?_, ?_⟩
  · exact claim_C2_theorem.1 pEdge ztZero _ rfl 0 (by decide) (0, 0) (by decide) rfl
  · exact claim_C2_theorem.1 pEdge ztZero _ rfl 0 (by decide) (1, 0) (by decide) rfl

/-- C3 — counterexample to the claim as stated: the 1×1 puzzle decoded
from a dot at the internal grid corner (0,0) has out-of-bounds forced
tiles, yet the solver does not reject it: seeding succeeds and the search
even returns a solution. -/
theorem claim_C3_cex :
    ((-1 : Int), (-1 : Int)) ∈ forcedTiles ((0 : Int), (0 : Int)) ∧
    p00.dots = [(0, 0, false)] ∧
    inTileBounds p00 (-1) (-1) = false ∧
    (seedForcedTiles p00 ztZero).isSome = true ∧
    (solveBFS p00 ztZero 1).isSome = true :=
  ⟨by decide, rfl, rfl, rfl, rfl⟩

/-- C3 (amended): `tryFill` ignores out-of-bounds forced tiles — it
succeeds without touching the state — so corner/border dots whose forced
tiles fall outside the user grid proceed to search; the solver rejects
only when an in-bounds forced tile is owned by a different dot. -/
theorem claim_C3_theorem :
    (∀ (p : Puz) (zt : Nat → Nat → Nat) (s : SState) (tx ty d : Int),
       inTileBounds p tx ty = false → tryFill p zt s tx ty d = (true, s)) ∧
    (∀ (p : Puz) (zt : Nat → Nat → Nat) (s : SState) (tx ty d : Int),
       inTileBounds p tx ty = true → s.grid tx ty ≠ -1 → s.grid tx ty ≠ d →
         tryFill p zt s tx ty d = (false, s)) := by
  constructor
  · intro p zt s tx ty d h
    rw [tryFill, if_pos h]
  · intro p zt s tx ty d hb hne hnd
    rw [tryFill, if_neg (by simp [hb]), if_neg hne]
    rw [decide_eq_false hnd]

/-- Witness for C3: an out-of-bounds fill is ignored; an in-bounds
conflicting fill fails. -/
theorem claim_C3_theorem_witness :
    tryFill p00 ztZero initSState (-1) (-1) 0 = (true, initSState) ∧
    tryFill pEdge ztZero ⟨updG initSState.grid 0 0 1, 1, 0⟩ 0 0 0 =
      (false, ⟨updG initSState.grid 0 0 1, 1, 0⟩) :=
  ⟨claim_C3_theorem.1 p00 ztZero initSState (-1) (-1) 0 rfl,
   claim_C3_theorem.2 pEdge ztZero ⟨updG initSState.grid 0 0 1, 1, 0⟩ 0 0 0 rfl
     (by norm_num [updG, initSState]) (by norm_num [updG, initSState])⟩

/-- C5 — counterexample to the claim as stated: decoding "1x1:Ma" places
the single white dot at internal (0,0) (the 'M' is consumed at scan
position 0), not at internal (1,1). -/
theorem claim_C5_cex :
    fromGameId ("1x1:Ma".toList) = some ⟨1, 1, [(0, 0, false)]⟩ ∧
    ¬∃ b, ((1 : Int), (1 : Int), b) ∈ [((0 : Int), (0 : Int), false)] :=
  ⟨rfl, by decide⟩

/-- C5 (amended): decoding "1x1:Ma" yields exactly one white dot, at
internal (0,0), and the C++ BFS solver accepts the puzzle with the single
tile owned by dot 0 (for any Zobrist table and any positive fuel). -/
theorem claim_C5_theorem :
    ∀ (zt : Nat → Nat → Nat) (fuel : Nat), 1 ≤ fuel →
      ∃ p, fromGameId ("1x1:Ma".toList) = some p ∧
        p.dots = [(0, 0, false)] ∧
        ∃ s, solveBFS p zt fuel = some s ∧ s.grid 0 0 = 0 ∧ allDotsUsed p s = true := by
  intro zt fuel hf
  obtain ⟨k, rfl⟩ : ∃ k, fuel = k + 1 := ⟨fuel - 1, by omega⟩
  exact ⟨_, rfl, rfl, _, rfl, rfl, rfl⟩

/-! ## Move enumeration (Solver::generateMoves of openmp_solver_dfs.cpp) -/

structure MoveR where
  tx : Int
  ty : Int
  d : Int
  sx : Int
  sy : Int
  symE : Bool
deriving DecidableEq

/-- The symmetric partner of tile `(x,y)` about dot index `d`'s dot. -/
def symOf (p : Puz) (d : Int) (x y : Int) : Int × Int :=
  getSymmetricTile (dotAt p d.toNat).1 (dotAt p d.toNat).2.1 x y

/-- One iteration of the nested loops of `generateMoves`: the `(x,y)` loop
body with the empty-cell test, one direction probe, the `(x,y,d)`
de-duplication scan over the moves built so far, and the symmetric-tile
checks.  (The source hoists the empty-cell test out of the direction loop;
flattening it into each step is equivalent.) -/
def gmStep (p : Puz) (g : Int → Int → Int) (acc : List MoveR)
    (st : (Int × Int) × (Int × Int)) : List MoveR :=
  let x := st.1.1
  let y := st.1.2
  let dir := st.2
  if g x y ≠ -1 then acc
  else
    let nx := x + dir.1
    let ny := y + dir.2
    if inTileBounds p nx ny = false then acc
    else
      let d := g nx ny
      if d = -1 then acc
      else if acc.any (fun m => decide (m.tx = x ∧ m.ty = y ∧ m.d = d)) then acc
      else
        let sym := symOf p d x y
        if inTileBounds p sym.1 sym.2 = false then acc
        else if g sym.1 sym.2 ≠ -1 ∧ g sym.1 sym.2 ≠ d then acc
        else acc ++ [⟨x, y, d, sym.1, sym.2, decide (g sym.1 sym.2 = -1)⟩]

/-- `Solver::generateMoves` (openmp_solver_dfs.cpp): scan all empty tiles
in row-major order, proposing each adjacent dot with its symmetric-pair
checks, de-duplicated on `(x,y,d)`. -/
def generateMoves (p : Puz) (g : Int → Int → Int) : List MoveR :=
  (bfsSteps p).foldl (gmStep p g) []

/-- Tile-list membership is exactly tile-bounds membership. -/
theorem mem_tilesList (p : Puz) (x y : Int) :
    (x, y) ∈ tilesList p ↔ inTileBounds p x y = true := by
  rw [tilesList, inTileBounds]
  constructor
  · intro hh
    obtain ⟨yy, hyy, hmem⟩ := List.mem_flatMap.mp hh
    obtain ⟨n, hn, hne⟩ := List.mem_map.mp hmem
    simp only [Prod.mk.injEq, Int.ofNat_eq_coe] at hne
    simp only [decide_eq_true_eq]
    have h1 := List.mem_range.mp hyy
    have h2 := List.mem_range.mp hn
    obtain ⟨he1, he2⟩ := hne
    omega
  · intro hb
    simp only [decide_eq_true_eq] at hb
    apply List.mem_flatMap.mpr
    refine ⟨y.toNat, List.mem_range.mpr (by omega), ?_⟩
    apply List.mem_map.mpr
    refine ⟨x.toNat, List.mem_range.mpr (by omega), ?_⟩
    simp only [Prod.mk.injEq, Int.ofNat_eq_coe]
    omega

/-- Membership in the step list is exactly an in-bounds tile with one of
the four directions. -/
theorem mem_bfsSteps (p : Puz) (x y : Int) (dir : Int × Int) :
    ((x, y), dir) ∈ bfsSteps p ↔ (inTileBounds p x y = true ∧ dir ∈ dirs4) := by
  rw [bfsSteps]
  simp only [List.mem_flatMap, List.mem_map]
  constructor
  · rintro ⟨t, ht, dir2, hd2, heq⟩
    simp only [Prod.mk.injEq] at heq
    obtain ⟨ht2, hd3⟩ := heq
    subst ht2
    subst hd3
    exact ⟨(mem_tilesList p x y).mp ht, hd2⟩
  · rintro ⟨hb, hd⟩
    exact ⟨(x, y), (mem_tilesList p x y).mpr hb, dir, hd, rfl⟩

/-- The conditions the claim states for proposing `(x,y) to d`. -/
def moveConds (p : Puz) (g : Int → Int → Int) (x y d : Int) : Prop :=
  inTileBounds p x y = true ∧ g x y = -1 ∧ d ≠ -1 ∧
  (∃ dir ∈ dirs4, inTileBounds p (x + dir.1) (y + dir.2) = true ∧
     g (x + dir.1) (y + dir.2) = d) ∧
  inTileBounds p (symOf p d x y).1 (symOf p d x y).2 = true ∧
  (g (symOf p d x y).1 (symOf p d x y).2 = -1 ∨
   ((symOf p d x y).1 = x ∧ (symOf p d x y).2 = y) ∨
   g (symOf p d x y).1 (symOf p d x y).2 = d)

/-- A step either leaves the accumulator alone or appends one move that
passed every guard. -/
theorem gmStep_sound (p : Puz) (g : Int → Int → Int) (acc : List MoveR)
    (st : (Int × Int) × (Int × Int)) (hst : inTileBounds p st.1.1 st.1.2 = true ∧ st.2 ∈ dirs4) :
    ∀ m ∈ gmStep p g acc st, m ∈ acc ∨ moveConds p g m.tx m.ty m.d := by
  intro m hm
  rw [gmStep] at hm
  by_cases h1 : g st.1.1 st.1.2 ≠ -1
  · rw [if_pos h1] at hm; exact Or.inl hm
  rw [if_neg h1] at hm
  by_cases h2 : inTileBounds p (st.1.1 + st.2.1) (st.1.2 + st.2.2) = false
  · rw [if_pos h2] at hm; exact Or.inl hm
  rw [if_neg h2] at hm
  by_cases h3 : g (st.1.1 + st.2.1) (st.1.2 + st.2.2) = -1
  · rw [if_pos h3] at hm; exact Or.inl hm
  rw [if_neg h3] at hm
  by_cases h4 : (acc.any (fun m => decide (m.tx = st.1.1 ∧ m.ty = st.1.2 ∧
      m.d = g (st.1.1 + st.2.1) (st.1.2 + st.2.2)))) = true
  · rw [if_pos h4] at hm; exact Or.inl hm
  rw [if_neg h4] at hm
  by_cases h5 : inTileBounds p (symOf p (g (st.1.1 + st.2.1) (st.1.2 + st.2.2)) st.1.1 st.1.2).1
      (symOf p (g (st.1.1 + st.2.1) (st.1.2 + st.2.2)) st.1.1 st.1.2).2 = false
  · rw [if_pos h5] at hm; exact Or.inl hm
  rw [if_neg h5] at hm
  by_cases h6 : g (symOf p (g (st.1.1 + st.2.1) (st.1.2 + st.2.2)) st.1.1 st.1.2).1
      (symOf p (g (st.1.1 + st.2.1) (st.1.2 + st.2.2)) st.1.1 st.1.2).2 ≠ -1 ∧
      g (symOf p (g (st.1.1 + st.2.1) (st.1.2 + st.2.2)) st.1.1 st.1.2).1
      (symOf p (g (st.1.1 + st.2.1) (st.1.2 + st.2.2)) st.1.1 st.1.2).2 ≠
      g (st.1.1 + st.2.1) (st.1.2 + st.2.2)
  · rw [if_pos h6] at hm; exact Or.inl hm
  rw [if_neg h6] at hm
  rcases List.mem_append.mp hm with h | h
  · exact Or.inl h
  · have hmeq : m = ⟨st.1.1, st.1.2, g (st.1.1 + st.2.1) (st.1.2 + st.2.2),
        (symOf p (g (st.1.1 + st.2.1) (st.1.2 + st.2.2)) st.1.1 st.1.2).1,
        (symOf p (g (st.1.1 + st.2.1) (st.1.2 + st.2.2)) st.1.1 st.1.2).2,
        decide (g (symOf p (g (st.1.1 + st.2.1) (st.1.2 + st.2.2)) st.1.1 st.1.2).1
          (symOf p (g (st.1.1 + st.2.1) (st.1.2 + st.2.2)) st.1.1 st.1.2).2 = -1)⟩ := by
      simpa using h
    right
    subst hmeq
    refine ⟨hst.1, not_not.mp h1, h3, ⟨st.2, hst.2, by simpa using h2, rfl⟩,
      by simpa using h5, ?_⟩
    rcases not_and_or.mp h6 with h | h
    · exact Or.inl (not_not.mp h)
    · exact Or.inr (Or.inr (not_not.mp h))

/-- A step only ever appends to the accumulator. -/
theorem gmStep_append (p : Puz) (g : Int → Int → Int) (acc : List MoveR)
    (st : (Int × Int) × (Int × Int)) : ∃ tl, gmStep p g acc st = acc ++ tl := by
  rw [gmStep]
  dsimp only
  repeat' first
  | split
  | exact ⟨_, rfl⟩
  | exact ⟨[], (List.append_nil acc).symm⟩

/-- Folding more steps never removes moves. -/
theorem gm_foldl_mono (p : Puz) (g : Int → Int → Int) :
    ∀ (l : List ((Int × Int) × (Int × Int))) (acc : List MoveR) (m : MoveR),
      m ∈ acc → m ∈ l.foldl (gmStep p g) acc := by
  intro l
  induction l with
  | nil => intro acc m hm; exact hm
  | cons st l ih =>
    intro acc m hm
    rw [List.foldl_cons]
    apply ih
    obtain ⟨tl, htl⟩ := gmStep_append p g acc st
    rw [htl]
    exact List.mem_append.mpr (Or.inl hm)
/-- Soundness of the whole fold: every accumulated move satisfies the
claim's conditions. -/
theorem gm_fold_sound (p : Puz) (g : Int → Int → Int) :
    ∀ (l : List ((Int × Int) × (Int × Int))) (acc : List MoveR),
      (∀ st ∈ l, inTileBounds p st.1.1 st.1.2 = true ∧ st.2 ∈ dirs4) →
      (∀ m ∈ acc, moveConds p g m.tx m.ty m.d) →
      ∀ m ∈ l.foldl (gmStep p g) acc, moveConds p g m.tx m.ty m.d := by
  intro l
  induction l with
  | nil => intro acc _ hacc m hm; exact hacc m hm
  | cons st l ih =>
    intro acc hl hacc m hm
    rw [List.foldl_cons] at hm
    refine ih (gmStep p g acc st) (fun u hu => hl u (List.mem_cons_of_mem _ hu)) ?_ m hm
    intro u hu
    rcases gmStep_sound p g acc st (hl st (List.mem_cons_self _ _)) u hu with h | h
    · exact hacc u h
    · exact h

/-- Completeness: when the claim's conditions hold via some direction that
appears in the remaining steps, the fold produces the move. -/
theorem gm_complete_aux (p : Puz) (g : Int → Int → Int) (x y d : Int)
    (hc : moveConds p g x y d) :
    ∀ (l : List ((Int × Int) × (Int × Int))) (acc : List MoveR) (dir : Int × Int),
      ((x, y), dir) ∈ l → inTileBounds p (x + dir.1) (y + dir.2) = true →
      g (x + dir.1) (y + dir.2) = d →
      ∃ m ∈ l.foldl (gmStep p g) acc, m.tx = x ∧ m.ty = y ∧ m.d = d := by
  intro l
  induction l with
  | nil => intro acc dir hmem; exact absurd hmem (List.not_mem_nil _)
  | cons st l ih =>
    intro acc dir hmem hb hgd
    rw [List.foldl_cons]
    rcases List.mem_cons.mp hmem with heq | htl
    · subst heq
      have hstep : ∃ m ∈ gmStep p g acc ((x, y), dir), m.tx = x ∧ m.ty = y ∧ m.d = d := by
        rw [gmStep]
        dsimp only
        rw [if_neg (not_not.mpr hc.2.1), if_neg (by rw [hb]; simp), hgd,
          if_neg hc.2.2.1]
        by_cases hdup : (acc.any fun m => decide (m.tx = x ∧ m.ty = y ∧ m.d = d)) = true
        · rw [if_pos hdup]
          obtain ⟨m, hm, hkeys⟩ := List.any_eq_true.mp hdup
          exact ⟨m, hm, of_decide_eq_true hkeys⟩
        · rw [if_neg hdup, if_neg (by rw [hc.2.2.2.2.1]; simp)]
          rw [if_neg ?hguard]
          case hguard =>
            rcases hc.2.2.2.2.2 with h | h | h
            · intro hcontra; exact hcontra.1 h
            · intro hcontra
              rw [h.1, h.2] at hcontra
              exact hcontra.1 hc.2.1
            · intro hcontra; exact hcontra.2 h
          refine ⟨_, List.mem_append.mpr (Or.inr (List.mem_cons_self _ _)), rfl, rfl, rfl⟩
      obtain ⟨m, hm, hkeys⟩ := hstep
      exact ⟨m, gm_foldl_mono p g l _ m hm, hkeys⟩
    · exact ih (gmStep p g acc st) dir htl hb hgd

/-- C8: the move enumeration of `Solver::generateMoves` proposes assigning
an unassigned in-bounds tile `(x,y)` to dot `d` exactly when some
4-neighbour is assigned to `d` and the symmetric partner about `d`'s dot
is in bounds and unassigned, equal to `(x,y)`, or already assigned to `d`;
no move violating these preconditions is proposed. -/
theorem claim_C8_theorem (p : Puz) (g : Int → Int → Int)
    (hwf : ∀ a b : Int, g a b = -1 ∨ (0 ≤ g a b ∧ g a b < (p.dots.length : Int)))
    (x y d : Int) :
    (∃ m ∈ generateMoves p g, m.tx = x ∧ m.ty = y ∧ m.d = d) ↔ moveConds p g x y d := by
  constructor
  · rintro ⟨m, hm, h1, h2, h3⟩
    rw [← h1, ← h2, ← h3]
    refine gm_fold_sound p g (bfsSteps p) [] ?_ (by intro u hu; exact absurd hu (List.not_mem_nil _)) m hm
    intro st hst
    have hst2 : ((st.1.1, st.1.2), st.2) ∈ bfsSteps p := by
      rw [show ((st.1.1, st.1.2), st.2) = st from rfl]
      exact hst
    exact (mem_bfsSteps p st.1.1 st.1.2 st.2).mp hst2
  · intro hc
    obtain ⟨dir, hdir, hb, hgd⟩ := hc.2.2.2.1
    exact gm_complete_aux p g x y d hc (bfsSteps p) [] dir
      ((mem_bfsSteps p x y dir).mpr ⟨hc.1, hdir⟩) hb hgd

/-- Witness for C8 on the edge-dot puzzle with tile (0,0) assigned to dot
0: the enumeration proposes (1,0)→0, whose symmetric partner about the dot
at internal (2,1) is (0,0), already owned by dot 0. -/
theorem claim_C8_theorem_witness :
    ∃ m ∈ generateMoves pEdge (updG (fun _ _ => -1) 0 0 0),
      m.tx = 1 ∧ m.ty = 0 ∧ m.d = 0 := by
  refine (claim_C8_theorem pEdge (updG (fun _ _ => -1) 0 0 0) ?_ 1 0 0).mpr
    ⟨rfl, rfl, by decide, ⟨(-1, 0), by decide, by decide, by decide⟩, by decide,
      Or.inr (Or.inr (by decide))⟩
  intro a b
  rw [updG]
  by_cases h : a = 0 ∧ b = 0
  · rw [if_pos h]
    right
    constructor
    · norm_num
    · show (0 : Int) < ((1 : Nat) : Int)
      norm_num
  · rw [if_neg h]
    left
    rfl

/-! ## DFS solver state operations (seq_solver_dfs.cpp)

The DFS variant shares `Puzzle::fromGameId`, `tryFill` and
`seedForcedTiles` with the BFS solver verbatim; its move structure records
the tile, the dot, the symmetric partner and whether the partner was empty
when the move was generated. -/

/-- One iteration of the move-collection loops inside `Solver::dfs`
(seq_solver_dfs.cpp): the empty-cell test, one direction probe, the
`(x,y,d)` de-duplication, then `isValidTile(sx,sy) || (sx==x && sy==y)`
and the `sym_empty` bookkeeping. -/
def dfsStep (p : Puz) (g : Int → Int → Int) (acc : List MoveR)
    (st : (Int × Int) × (Int × Int)) : List MoveR :=
  let x := st.1.1
  let y := st.1.2
  let dir := st.2
  if g x y ≠ -1 then acc
  else
    let nx := x + dir.1
    let ny := y + dir.2
    if inTileBounds p nx ny = true ∧ g nx ny ≠ -1 then
      let d := g nx ny
      if acc.any (fun m => decide (m.tx = x ∧ m.ty = y ∧ m.d = d)) then acc
      else
        let sym := symOf p d x y
        if isValidTile p g sym.1 sym.2 || decide (sym.1 = x ∧ sym.2 = y) then
          let symE := decide (g sym.1 sym.2 = -1)
          if symE = false ∧ g sym.1 sym.2 ≠ d then acc
          else acc ++ [⟨x, y, d, sym.1, sym.2, symE⟩]
        else acc
    else acc

/-- The move list one `Solver::dfs` node enumerates. -/
def dfsMoves (p : Puz) (g : Int → Int → Int) : List MoveR :=
  (bfsSteps p).foldl (dfsStep p g) []

/-- `Solver::applyMove`: assign the tile, fold its Zobrist entry into the
hash, and do the same for the symmetric partner when it is distinct and
was empty. -/
def applyMoveD (p : Puz) (zt : Nat → Nat → Nat) (s : SState) (m : MoveR) : SState :=
  let s1 : SState :=
    { grid := updG s.grid m.tx m.ty m.d,
      filled := s.filled + 1,
      hash := s.hash ^^^ cellZ zt p m.tx m.ty m.d }
  if m.tx ≠ m.sx ∨ m.ty ≠ m.sy then
    if m.symE then
      { grid := updG s1.grid m.sx m.sy m.d,
        filled := s1.filled + 1,
        hash := s1.hash ^^^ cellZ zt p m.sx m.sy m.d }
    else s1
  else s1

/-- `Solver::undoMove`: clear the tile(s) and XOR the same entries back
out. -/
def undoMoveD (p : Puz) (zt : Nat → Nat → Nat) (s : SState) (m : MoveR) : SState :=
  let s1 : SState :=
    { grid := updG s.grid m.tx m.ty (-1),
      filled := s.filled - 1,
      hash := s.hash ^^^ cellZ zt p m.tx m.ty m.d }
  if m.tx ≠ m.sx ∨ m.ty ≠ m.sy then
    if m.symE then
      { grid := updG s1.grid m.sx m.sy (-1),
        filled := s1.filled - 1,
        hash := s1.hash ^^^ cellZ zt p m.sx m.sy m.d }
    else s1
  else s1

/-- The Zobrist contribution of one tile of a grid: zero when unassigned,
`Z[cell][dot]` when assigned. -/
def hashContrib (zt : Nat → Nat → Nat) (p : Puz) (g : Int → Int → Int)
    (t : Int × Int) : Nat :=
  if g t.1 t.2 = -1 then 0 else cellZ zt p t.1 t.2 (g t.1 t.2)

/-- The hash the spec prescribes: XOR over all assigned tiles of their
Zobrist entries. -/
def hashOf (p : Puz) (zt : Nat → Nat → Nat) (g : Int → Int → Int) : Nat :=
  (tilesList p).foldl (fun a t => a ^^^ hashContrib zt p g t) 0

/-! ### XOR-fold bookkeeping -/

theorem foldl_xor_shift (f : Int × Int → Nat) :
    ∀ (l : List (Int × Int)) (a : Nat),
      l.foldl (fun acc t => acc ^^^ f t) a = a ^^^ l.foldl (fun acc t => acc ^^^ f t) 0 := by
  intro l
  induction l with
  | nil => intro a; exact (Nat.xor_zero a).symm
  | cons t l ih =>
    intro a
    rw [List.foldl_cons, List.foldl_cons, ih (a ^^^ f t), ih (0 ^^^ f t),
      Nat.zero_xor, Nat.xor_assoc]

theorem foldl_xor_congr (f g : Int × Int → Nat) :
    ∀ (l : List (Int × Int)), (∀ t ∈ l, f t = g t) →
      ∀ a : Nat, l.foldl (fun acc t => acc ^^^ f t) a = l.foldl (fun acc t => acc ^^^ g t) a := by
  intro l
  induction l with
  | nil => intro _ a; rfl
  | cons t l ih =>
    intro h a
    rw [List.foldl_cons, List.foldl_cons, h t (List.mem_cons_self _ _),
      ih (fun u hu => h u (List.mem_cons_of_mem _ hu))]

theorem xor_cancel_r (a b : Nat) : (a ^^^ b) ^^^ b = a := by
  rw [Nat.xor_assoc, Nat.xor_self, Nat.xor_zero]

/-- Changing a function at a single listed tile shifts the XOR fold by the
old and new contributions of that tile. -/
theorem foldl_xor_update (f f2 : Int × Int → Nat) :
    ∀ (l : List (Int × Int)), l.Nodup → ∀ c ∈ l, (∀ t ∈ l, t ≠ c → f2 t = f t) →
      l.foldl (fun acc t => acc ^^^ f2 t) 0 =
        (l.foldl (fun acc t => acc ^^^ f t) 0) ^^^ f c ^^^ f2 c := by
  intro l
  induction l with
  | nil => intro _ c hc; exact absurd hc (List.not_mem_nil _)
  | cons t l ih =>
    intro hnd c hc hagree
    obtain ⟨hnotmem, hndl⟩ := List.nodup_cons.mp hnd
    rw [List.foldl_cons, List.foldl_cons, foldl_xor_shift f2, foldl_xor_shift f,
      Nat.zero_xor, Nat.zero_xor]
    rcases List.mem_cons.mp hc with rfl | hcl
    · have hrest : ∀ u ∈ l, f2 u = f u := fun u hu =>
        hagree u (List.mem_cons_of_mem _ hu) (fun h => hnotmem (h ▸ hu))
    
      rw [foldl_xor_congr f2 f l hrest 0,
        Nat.xor_comm (f c) (l.foldl (fun acc t => acc ^^^ f t) 0),
        xor_cancel_r, Nat.xor_comm (f2 c) (l.foldl (fun acc t => acc ^^^ f t) 0)]
    · have ht2 : f2 t = f t := hagree t (List.mem_cons_self _ _) (fun h => hnotmem (h ▸ hcl))
      rw [ht2, ih hndl c hcl (fun u hu hne => hagree u (List.mem_cons_of_mem _ hu) hne),
        ← Nat.xor_assoc, ← Nat.xor_assoc]

theorem tilesList_nodup (p : Puz) : (tilesList p).Nodup := by
  rw [tilesList]
  apply List.nodup_flatMap.mpr
  constructor
  · intro y _
    apply List.Nodup.map _ (List.nodup_range _)
    intro a b hab
    simpa using congrArg Prod.fst hab
  · apply List.Pairwise.imp_of_mem _ (List.nodup_range p.h)
    intro y1 y2 _ _ hne
    intro c h1 h2
    obtain ⟨a, _, ha⟩ := List.mem_map.mp h1
    obtain ⟨b, _, hb⟩ := List.mem_map.mp h2
    have e1 := congrArg Prod.snd ha
    have e2 := congrArg Prod.snd hb
    have : Int.ofNat y1 = Int.ofNat y2 := e1.trans e2.symm
    exact hne (by simpa using this)

/-- Pointwise grid update at an in-bounds tile shifts the prescribed hash
by the tile's old and new contributions. -/
theorem hashOf_update (p : Puz) (zt : Nat → Nat → Nat) (g : Int → Int → Int)
    (x y v : Int) (hb : inTileBounds p x y = true) :
    hashOf p zt (updG g x y v) =
      hashOf p zt g ^^^ hashContrib zt p g (x, y) ^^^
        hashContrib zt p (updG g x y v) (x, y) := by
  rw [hashOf, hashOf]
  apply foldl_xor_update _ _ (tilesList p) (tilesList_nodup p) (x, y)
    ((mem_tilesList p x y).mpr hb)
  intro t _ hne
  rw [hashContrib, hashContrib]
  have hcell : updG g x y v t.1 t.2 = g t.1 t.2 := by
    rw [updG, if_neg]
    intro ⟨h1, h2⟩
    exact hne (Prod.ext h1 h2)
  rw [hcell]

/-! ### The Zobrist-hash invariant of the DFS solver -/

/-- What the DFS enumeration guarantees about every move it returns,
relative to the grid it was generated from. -/
def validMove (p : Puz) (g : Int → Int → Int) (m : MoveR) : Prop :=
  inTileBounds p m.tx m.ty = true ∧ g m.tx m.ty = -1 ∧
  inTileBounds p m.sx m.sy = true ∧ g m.sx m.sy = -1 ∧
  m.symE = true ∧ m.d ≠ -1

theorem dfsStep_sound (p : Puz) (g : Int → Int → Int) (acc : List MoveR)
    (st : (Int × Int) × (Int × Int)) (hst : inTileBounds p st.1.1 st.1.2 = true) :
    ∀ m ∈ dfsStep p g acc st, m ∈ acc ∨ validMove p g m := by
  intro m hm
  rw [dfsStep] at hm
  by_cases h1 : g st.1.1 st.1.2 ≠ -1
  · rw [if_pos h1] at hm; exact Or.inl hm
  rw [if_neg h1] at hm
  by_cases h2 : inTileBounds p (st.1.1 + st.2.1) (st.1.2 + st.2.2) = true ∧
      g (st.1.1 + st.2.1) (st.1.2 + st.2.2) ≠ -1
  swap
  · rw [if_neg h2] at hm; exact Or.inl hm
  rw [if_pos h2] at hm
  by_cases h3 : (acc.any fun m => decide (m.tx = st.1.1 ∧ m.ty = st.1.2 ∧
      m.d = g (st.1.1 + st.2.1) (st.1.2 + st.2.2))) = true
  · rw [if_pos h3] at hm; exact Or.inl hm
  rw [if_neg h3] at hm
  by_cases h4 : (isValidTile p g (symOf p (g (st.1.1 + st.2.1) (st.1.2 + st.2.2)) st.1.1 st.1.2).1
      (symOf p (g (st.1.1 + st.2.1) (st.1.2 + st.2.2)) st.1.1 st.1.2).2 ||
      decide ((symOf p (g (st.1.1 + st.2.1) (st.1.2 + st.2.2)) st.1.1 st.1.2).1 = st.1.1 ∧
        (symOf p (g (st.1.1 + st.2.1) (st.1.2 + st.2.2)) st.1.1 st.1.2).2 = st.1.2)) = true
  swap
  · rw [if_neg h4] at hm; exact Or.inl hm
  rw [if_pos h4] at hm
  have hgxy : g st.1.1 st.1.2 = -1 := not_not.mp h1
  have hsym : g (symOf p (g (st.1.1 + st.2.1) (st.1.2 + st.2.2)) st.1.1 st.1.2).1
      (symOf p (g (st.1.1 + st.2.1) (st.1.2 + st.2.2)) st.1.1 st.1.2).2 = -1 ∧
      inTileBounds p (symOf p (g (st.1.1 + st.2.1) (st.1.2 + st.2.2)) st.1.1 st.1.2).1
      (symOf p (g (st.1.1 + st.2.1) (st.1.2 + st.2.2)) st.1.1 st.1.2).2 = true := by
    rcases Bool.or_eq_true _ _ |>.mp h4 with h | h
    · rw [isValidTile, Bool.and_eq_true] at h
      exact ⟨of_decide_eq_true h.2, h.1⟩
    · have h5 := of_decide_eq_true h
      rw [h5.1, h5.2]
      exact ⟨hgxy, hst⟩
  rw [if_neg (by rw [hsym.1]; simp)] at hm
  rcases List.mem_append.mp hm with h | h
  · exact Or.inl h
  · have hmeq : m = ⟨st.1.1, st.1.2, g (st.1.1 + st.2.1) (st.1.2 + st.2.2),
        (symOf p (g (st.1.1 + st.2.1) (st.1.2 + st.2.2)) st.1.1 st.1.2).1,
        (symOf p (g (st.1.1 + st.2.1) (st.1.2 + st.2.2)) st.1.1 st.1.2).2,
        decide (g (symOf p (g (st.1.1 + st.2.1) (st.1.2 + st.2.2)) st.1.1 st.1.2).1
          (symOf p (g (st.1.1 + st.2.1) (st.1.2 + st.2.2)) st.1.1 st.1.2).2 = -1)⟩ := by
      simpa using h
    right
    subst hmeq
    exact ⟨hst, hgxy, hsym.2, hsym.1, by rw [hsym.1]; simp, h2.2⟩

theorem dfsStep_append (p : Puz) (g : Int → Int → Int) (acc : List MoveR)
    (st : (Int × Int) × (Int × Int)) : ∃ tl, dfsStep p g acc st = acc ++ tl := by
  rw [dfsStep]
  dsimp only
  repeat' first
  | split
  | exact ⟨_, rfl⟩
  | exact ⟨[], (List.append_nil acc).symm⟩

/-- Every move the DFS enumeration returns is valid for its grid. -/
theorem dfsMoves_sound (p : Puz) (g : Int → Int → Int) :
    ∀ m ∈ dfsMoves p g, validMove p g m := by
  have haux : ∀ (l : List ((Int × Int) × (Int × Int))) (acc : List MoveR),
      (∀ st ∈ l, inTileBounds p st.1.1 st.1.2 = true) →
      (∀ m ∈ acc, validMove p g m) →
      ∀ m ∈ l.foldl (dfsStep p g) acc, validMove p g m := by
    intro l
    induction l with
    | nil => intro acc _ hacc m hm; exact hacc m hm
    | cons st l ih =>
      intro acc hl hacc m hm
      rw [List.foldl_cons] at hm
      refine ih (dfsStep p g acc st) (fun u hu => hl u (List.mem_cons_of_mem _ hu)) ?_ m hm
      intro u hu
      rcases dfsStep_sound p g acc st (hl st (List.mem_cons_self _ _)) u hu with h | h
      · exact hacc u h
      · exact h
  intro m hm
  refine haux (bfsSteps p) [] ?_ (fun u hu => absurd hu (List.not_mem_nil _)) m hm
  intro st hst
  have hst2 : ((st.1.1, st.1.2), st.2) ∈ bfsSteps p := by
    rw [show ((st.1.1, st.1.2), st.2) = st from rfl]
    exact hst
  exact ((mem_bfsSteps p st.1.1 st.1.2 st.2).mp hst2).1

theorem xor_rcomm (a b c : Nat) : (a ^^^ b) ^^^ c = (a ^^^ c) ^^^ b := by
  rw [Nat.xor_assoc, Nat.xor_comm b c, ← Nat.xor_assoc]

/-- Filling an empty in-bounds tile XORs in exactly that tile's entry. -/
theorem hashOf_fill (p : Puz) (zt : Nat → Nat → Nat) (g : Int → Int → Int)
    (x y v : Int) (hb : inTileBounds p x y = true) (he : g x y = -1) (hv : v ≠ -1) :
    hashOf p zt (updG g x y v) = hashOf p zt g ^^^ cellZ zt p x y v := by
  rw [hashOf_update p zt g x y v hb, hashContrib, hashContrib]
  dsimp only
  rw [he, if_pos rfl, Nat.xor_zero]
  rw [show updG g x y v x y = v from by rw [updG, if_pos ⟨rfl, rfl⟩], if_neg hv]

/-- Clearing an assigned in-bounds tile XORs out exactly its entry. -/
theorem hashOf_clear (p : Puz) (zt : Nat → Nat → Nat) (g : Int → Int → Int)
    (x y v : Int) (hb : inTileBounds p x y = true) (he : g x y = v) (hv : v ≠ -1) :
    hashOf p zt (updG g x y (-1)) = hashOf p zt g ^^^ cellZ zt p x y v := by
  rw [hashOf_update p zt g x y (-1) hb, hashContrib, hashContrib]
  dsimp only
  rw [he, if_neg hv]
  rw [show updG g x y (-1) x y = -1 from by rw [updG, if_pos ⟨rfl, rfl⟩], if_pos rfl,
    Nat.xor_zero]

theorem hashOf_blank (p : Puz) (zt : Nat → Nat → Nat) :
    hashOf p zt (fun _ _ => -1) = 0 := by
  rw [hashOf]
  have h : ∀ (l : List (Int × Int)),
      l.foldl (fun a t => a ^^^ hashContrib zt p (fun _ _ => -1) t) 0 = 0 := by
    intro l
    induction l with
    | nil => rfl
    | cons t l ih =>
      rw [List.foldl_cons, hashContrib, if_pos rfl, Nat.xor_zero, ih]
  exact h _

/-- `tryFill` keeps the stored hash equal to the prescribed XOR. -/
theorem tryFill_hashInv (p : Puz) (zt : Nat → Nat → Nat) (s : SState) (tx ty d : Int)
    (hd : d ≠ -1) (hinv : s.hash = hashOf p zt s.grid) :
    ((tryFill p zt s tx ty d).2).hash = hashOf p zt ((tryFill p zt s tx ty d).2).grid := by
  rw [tryFill]
  by_cases hb : inTileBounds p tx ty = false
  · rw [if_pos hb]; exact hinv
  rw [if_neg hb]
  by_cases he : s.grid tx ty = -1
  · rw [if_pos he]
    show s.hash ^^^ cellZ zt p tx ty d = hashOf p zt (updG s.grid tx ty d)
    rw [hashOf_fill p zt s.grid tx ty d (by simpa using hb) he hd, hinv]
  · rw [if_neg he]; exact hinv

theorem fillSeq_hashInv (p : Puz) (zt : Nat → Nat → Nat) (d : Int) (hd : d ≠ -1) :
    ∀ (ts : List (Int × Int)) (s : SState), s.hash = hashOf p zt s.grid →
      ((fillSeq p zt s d ts).2).hash = hashOf p zt ((fillSeq p zt s d ts).2).grid := by
  intro ts
  induction ts with
  | nil => intro s hinv; exact hinv
  | cons t ts ih =>
    intro s hinv
    rw [fillSeq, andThen]
    by_cases hok : (tryFill p zt s t.1 t.2 d).1 = true
    · rw [if_pos hok]
      exact ih _ (tryFill_hashInv p zt s t.1 t.2 d hd hinv)
    · rw [if_neg hok]
      exact tryFill_hashInv p zt s t.1 t.2 d hd hinv

/-- Seeding establishes the hash invariant. -/
theorem seedUpTo_hashInv (p : Puz) (zt : Nat → Nat → Nat) :
    ∀ (n : Nat) (s : SState), seedUpTo p zt n = some s → s.hash = hashOf p zt s.grid := by
  intro n
  induction n with
  | zero =>
    intro s hs
    have : s = initSState := (Option.some_injective _ hs.symm)
    rw [this]
    exact (hashOf_blank p zt).symm
  | succ n ih =>
    intro s hs
    rw [seedUpTo_succ] at hs
    match hs0 : seedUpTo p zt n with
    | none => rw [hs0] at hs; exact absurd hs (by simp)
    | some s0 =>
      rw [hs0] at hs
      have hs1 : (if (seedDot p zt n s0).1 = true then some (seedDot p zt n s0).2
          else none) = some s := hs
      by_cases hok : (seedDot p zt n s0).1 = true
      · rw [if_pos hok] at hs1
        have hs2 : s = (seedDot p zt n s0).2 := (Option.some_injective _ hs1).symm
        rw [hs2, seedDot_eq_fillSeq]
        exact fillSeq_hashInv p zt _ (by omega) _ s0 (ih s0 hs0)
      · rw [if_neg hok] at hs1
        exact absurd hs1 (by simp)

/-- `applyMove` keeps the stored hash equal to the prescribed XOR. -/
theorem applyMoveD_hashInv (p : Puz) (zt : Nat → Nat → Nat) (s : SState) (m : MoveR)
    (hv : validMove p s.grid m) (hinv : s.hash = hashOf p zt s.grid) :
    (applyMoveD p zt s m).hash = hashOf p zt (applyMoveD p zt s m).grid := by
  obtain ⟨hb1, he1, hb2, he2, hsymE, hd⟩ := hv
  rw [applyMoveD]
  by_cases hdist : m.tx ≠ m.sx ∨ m.ty ≠ m.sy
  · rw [if_pos hdist, hsymE, if_pos rfl]
    show s.hash ^^^ cellZ zt p m.tx m.ty m.d ^^^ cellZ zt p m.sx m.sy m.d =
      hashOf p zt (updG (updG s.grid m.tx m.ty m.d) m.sx m.sy m.d)
    have hne : ¬(m.sx = m.tx ∧ m.sy = m.ty) := by
      intro ⟨h1, h2⟩
      rcases hdist with h | h
      · exact h h1.symm
      · exact h h2.symm
    have he2b : (updG s.grid m.tx m.ty m.d) m.sx m.sy = -1 := by
      rw [updG_eval, if_neg hne]
      exact he2
    rw [hashOf_fill p zt _ m.sx m.sy m.d hb2 he2b hd,
      hashOf_fill p zt s.grid m.tx m.ty m.d hb1 he1 hd, hinv]
  · rw [if_neg hdist]
    show s.hash ^^^ cellZ zt p m.tx m.ty m.d = hashOf p zt (updG s.grid m.tx m.ty m.d)
    rw [hashOf_fill p zt s.grid m.tx m.ty m.d hb1 he1 hd, hinv]

/-- Undo exactly reverses apply on the state the move was generated
from. -/
theorem undo_applyMoveD (p : Puz) (zt : Nat → Nat → Nat) (s : SState) (m : MoveR)
    (hv : validMove p s.grid m) :
    undoMoveD p zt (applyMoveD p zt s m) m = s := by
  obtain ⟨hb1, he1, hb2, he2, hsymE, hd⟩ := hv
  rcases s with ⟨g, f, h⟩
  rw [applyMoveD, undoMoveD]
  by_cases hdist : m.tx ≠ m.sx ∨ m.ty ≠ m.sy
  · rw [if_pos hdist, hsymE, if_pos rfl]
    rw [if_pos hdist, if_pos rfl]
    have hgrid : updG (updG (updG (updG g m.tx m.ty m.d) m.sx m.sy m.d) m.tx m.ty (-1))
        m.sx m.sy (-1) = g := by
      funext a b
      simp only [updG_eval]
      by_cases hs : a = m.sx ∧ b = m.sy
      · rw [if_pos hs, hs.1, hs.2]
        exact he2.symm
      · rw [if_neg hs, if_neg hs]
        by_cases ht : a = m.tx ∧ b = m.ty
        · rw [if_pos ht, ht.1, ht.2]
          exact he1.symm
        · rw [if_neg ht, if_neg ht]
    have hhash : h ^^^ cellZ zt p m.tx m.ty m.d ^^^ cellZ zt p m.sx m.sy m.d ^^^
        cellZ zt p m.tx m.ty m.d ^^^ cellZ zt p m.sx m.sy m.d = h := by
      rw [xor_rcomm (h ^^^ cellZ zt p m.tx m.ty m.d) (cellZ zt p m.sx m.sy m.d)
          (cellZ zt p m.tx m.ty m.d),
        xor_cancel_r, xor_cancel_r]
    have hfill : f + 1 + 1 - 1 - 1 = f := by omega
    rw [hgrid, hhash, hfill]
  · rw [if_neg hdist]
    dsimp only
    rw [if_neg hdist]
    have hgrid : updG (updG g m.tx m.ty m.d) m.tx m.ty (-1) = g := by
      funext a b
      simp only [updG_eval]
      by_cases ht : a = m.tx ∧ b = m.ty
      · rw [if_pos ht, ht.1, ht.2]
        exact he1.symm
      · rw [if_neg ht, if_neg ht]
    have hhash : h ^^^ cellZ zt p m.tx m.ty m.d ^^^ cellZ zt p m.tx m.ty m.d = h :=
      xor_cancel_r _ _
    have hfill : f + 1 - 1 = f := by omega
    rw [hgrid, hhash, hfill]

/-- States reachable by the DFS driver: the seeded initial state, and any
apply/undo of a move the enumeration produced for the current grid. -/
inductive ReachD (p : Puz) (zt : Nat → Nat → Nat) : SState → Prop
  | seed (s : SState) : seedForcedTiles p zt = some s → ReachD p zt s
  | step (s : SState) (m : MoveR) : ReachD p zt s → m ∈ dfsMoves p s.grid →
      ReachD p zt (applyMoveD p zt s m)
  | undo (s : SState) (m : MoveR) : ReachD p zt s → m ∈ dfsMoves p s.grid →
      ReachD p zt (undoMoveD p zt (applyMoveD p zt s m) m)

/-- C9: in every state the DFS driver can reach from the seeded initial
state by applying and undoing enumerated moves, the stored 64-bit hash
equals the XOR over all assigned tiles of the Zobrist entry indexed by the
tile's cell and its owning dot. -/
theorem claim_C9_theorem (p : Puz) (zt : Nat → Nat → Nat) (s : SState)
    (h : ReachD p zt s) : s.hash = hashOf p zt s.grid := by
  induction h with
  | seed s hs =>
    rw [seedForcedTiles_eq_upTo] at hs
    exact seedUpTo_hashInv p zt p.dots.length s hs
  | step s m _ hm ih =>
    exact applyMoveD_hashInv p zt s m (dfsMoves_sound p s.grid m hm) ih
  | undo s m _ hm ih =>
    rw [undo_applyMoveD p zt s m (dfsMoves_sound p s.grid m hm)]
    exact ih

/-- A small nontrivial Zobrist table for witnesses. -/
def ztW : Nat → Nat → Nat := fun i d => 2 * i + 3 * d + 1

/-- Witness for C9: the seeded state of the edge-dot puzzle is reachable
and satisfies the invariant. -/
theorem claim_C9_theorem_witness :
    ∃ s, ReachD pEdge ztW s ∧ s.hash = hashOf pEdge ztW s.grid :=
  ⟨_, ReachD.seed _ rfl, claim_C9_theorem pEdge ztW _ (ReachD.seed _ rfl)⟩

/-- Witness for C5 at fuel 1 and the all-zero table. -/
theorem claim_C5_theorem_witness :
    (1 ≤ 1) ∧
    ∃ p, fromGameId ("1x1:Ma".toList) = some p ∧
      p.dots = [(0, 0, false)] ∧
      ∃ s, solveBFS p ztZero 1 = some s ∧ s.grid 0 0 = 0 ∧ allDotsUsed p s = true :=
  ⟨le_refl 1, claim_C5_theorem ztZero 1 (le_refl 1)⟩

/-! ## Generator board state (simple_generator.c)

A cell of the internal grid carries the flag bits of `struct space`
(`F_DOT`, `F_DOT_BLACK`, `F_EDGE_SET`, `F_TILE_ASSOC`) as booleans, the
associated dot's internal coordinates `dotx`/`doty`, and for dots the
associated-tile count `nassoc`.  The cell type (`s_tile`/`s_edge`/
`s_vertex`) is derived from the coordinate parities, as `blank_game`
computes it. -/

structure GSpace where
  hasDot : Bool
  dotBlack : Bool
  edgeSet : Bool
  assoc : Bool
  dotx : Int
  doty : Int
  nassoc : Nat
deriving DecidableEq

structure GState where
  w : Nat
  h : Nat
  ndots : Nat
  cell : Int → Int → GSpace
 
/-- Internal grid width `sx = 2*w + 1`. -/
def gsx (s : GState) : Int := 2 * (s.w : Int) + 1

/-- Internal grid height `sy = 2*h + 1`. -/
def gsy (s : GState) : Int := 2 * (s.h : Int) + 1

/-- The macro `INGRID(s,x,y)`. -/
def GINGRID (s : GState) (x y : Int) : Bool :=
  decide (0 ≤ x ∧ x < gsx s ∧ 0 ≤ y ∧ y < gsy s)

/-- Write one cell of the grid through a field update. -/
def setCell (s : GState) (x y : Int) (f : GSpace → GSpace) : GState :=
  { s with cell := fun a b => if a = x ∧ b = y then f (s.cell x y) else s.cell a b }

theorem setCell_eval (s : GState) (x y : Int) (f : GSpace → GSpace) (a b : Int) :
    (setCell s x y f).cell a b = if a = x ∧ b = y then f (s.cell x y) else s.cell a b := rfl

theorem setCell_ndots (s : GState) (x y : Int) (f : GSpace → GSpace) :
    (setCell s x y f).ndots = s.ndots := rfl

/-- `blank_game`: typed cells, zeroed flags (`memset`), then the border
frame edge-set. -/
def blank_game (w h : Nat) : GState :=
  { w := w, h := h, ndots := 0,
    cell := fun x y =>
      { hasDot := false, dotBlack := false,
        edgeSet := decide (x = 0 ∨ y = 0 ∨ x = 2 * (w : Int) ∨ y = 2 * (h : Int)),
        assoc := false, dotx := 0, doty := 0, nassoc := 0 } }

/-- `clear_game`: reset every in-grid cell to the frame-only flags with
`nassoc = 0` and `dotx = doty = -1`, and drop the dot index. -/
def clear_game (s : GState) : GState :=
  { s with
    ndots := 0
    cell := fun x y =>
      if GINGRID s x y then
        { hasDot := false, dotBlack := false,
          edgeSet := decide (x = 0 ∨ y = 0 ∨ x = gsx s - 1 ∨ y = gsy s - 1),
          assoc := false, dotx := -1, doty := -1, nassoc := 0 }
      else s.cell x y }

/-- `add_dot`: set `F_DOT` and reset the dot's `nassoc`. -/
def add_dot (s : GState) (x y : Int) : GState :=
  setCell s x y (fun c => { c with hasDot := true, nassoc := 0 })

/-- `space_opposite_dot`: the cell mirror-symmetric to `(spx,spy)` about
the dot `(dx,dy)`, or `none` when it falls off the grid. -/
def space_opposite_dot (s : GState) (spx spy dx dy : Int) : Option (Int × Int) :=
  let x := dx + (dx - spx)
  let y := dy + (dy - spy)
  if GINGRID s x y then some (x, y) else none

/-- The pair of statements `tile->flags |= F_TILE_ASSOC; tile->dotx = ...;
tile->doty = ...; dot->nassoc++;` — associate one tile and bump the dot's
count (aliasing of the tile and dot cells is handled by the sequential
updates, as in the source). -/
def assocTile (s : GState) (tx ty dx dy : Int) : GState :=
  setCell (setCell s tx ty (fun c => { c with assoc := true, dotx := dx, doty := dy }))
    dx dy (fun c => { c with nassoc := c.nassoc + 1 })

/-- One tile's body of the `solver_obvious_dot` double loop. -/
def scanStep (dx dy : Int) (s : GState) (t : Int × Int) : GState :=
  if (s.cell t.1 t.2).assoc then s
  else
    match space_opposite_dot s t.1 t.2 dx dy with
    | none => s
    | some o =>
      if (s.cell o.1 o.2).assoc = true ∧
          ((s.cell o.1 o.2).dotx ≠ dx ∨ (s.cell o.1 o.2).doty ≠ dy) then s
      else
        let s1 := assocTile s t.1 t.2 dx dy
        if (s1.cell o.1 o.2).assoc then s1
        else assocTile s1 o.1 o.2 dx dy

/-- The tile iteration order of `solver_obvious_dot`:
`for (x = 1; x < sx; x += 2) for (y = 1; y < sy; y += 2)`. -/
def tileScanList (s : GState) : List (Int × Int) :=
  (List.range s.w).flatMap fun i =>
    (List.range s.h).map fun j => (Int.ofNat (2 * i + 1), Int.ofNat (2 * j + 1))

/-- `solver_obvious_dot`: associate every unassociated tile whose mirror
about the dot is in grid and not owned by another dot (the `ret` flag is
dropped; only the assert consumes it in the source). -/
def solver_obvious_dot (s : GState) (dx dy : Int) : GState :=
  (tileScanList s).foldl (scanStep dx dy) s

/-- Phase 1 of `dot_expand_or_move`: every proposed tile's mirror must be
in grid and either unassociated or already owned by this dot. -/
def expandCheck (s : GState) (dx dy : Int) (t : Int × Int) : Bool :=
  match space_opposite_dot s t.1 t.2 dx dy with
  | none => false
  | some o =>
    decide (¬((s.cell o.1 o.2).assoc = true ∧
      ((s.cell o.1 o.2).dotx ≠ dx ∨ (s.cell o.1 o.2).doty ≠ dy)))

/-- Phase 2 of `dot_expand_or_move` for one tile: associate it, then its
mirror if the mirror is still unassociated. -/
def expandAdd (dx dy : Int) (s : GState) (t : Int × Int) : GState :=
  let s1 := assocTile s t.1 t.2 dx dy
  match space_opposite_dot s1 t.1 t.2 dx dy with
  | none => s1
  | some o => if (s1.cell o.1 o.2).assoc then s1 else assocTile s1 o.1 o.2 dx dy

/-- `dot_expand_or_move`: check all proposed tiles against the original
state, reject without mutation on any failure; otherwise associate all
tiles and mirrors and run the propagator. -/
def dot_expand_or_move (s : GState) (dx dy : Int) (toadd : List (Int × Int)) :
    Bool × GState :=
  if toadd.all (expandCheck s dx dy) = false then (false, s)
  else (true, solver_obvious_dot (toadd.foldl (expandAdd dx dy) s) dx dy)

/-- The half-extents of the feasibility rectangle of `dot_is_possible`,
from the cell's parity class: tile ±1×±1, vertical edge ±2×±1, horizontal
edge ±1×±2, vertex ±2×±2. -/
def rectHalf (x y : Int) : Int × Int :=
  if x % 2 ≠ 0 ∧ y % 2 ≠ 0 then (1, 1)
  else if x % 2 = 0 ∧ y % 2 = 0 then (2, 2)
  else if x % 2 = 0 then (2, 1)
  else (1, 2)

/-- Offsets `(dx, dy)` with `-bx ≤ dx ≤ bx` (outer) and `-by ≤ dy ≤ by`
(inner), in the loop order of `dot_is_possible`. -/
def rectOffsets (bx bb : Int) : List (Int × Int) :=
  (List.range (2 * bx.toNat + 1)).flatMap fun i =>
    (List.range (2 * bb.toNat + 1)).map fun j => (Int.ofNat i - bx, Int.ofNat j - bb)

/-- `dot_is_possible`: within the rectangle no other dot anywhere, no
associated tile unless `allowAssoc`, and no edge-set cell strictly inside
the rectangle. -/
def dot_is_possible (s : GState) (x y : Int) (allowAssoc : Bool) : Bool :=
  let b := rectHalf x y
  (rectOffsets b.1 b.2).all fun off =>
    if GINGRID s (x + off.1) (y + off.2) = false then true
    else
      let adj := s.cell (x + off.1) (y + off.2)
      decide (¬(allowAssoc = false ∧ adj.assoc = true)) &&
      decide (¬((off.1 ≠ 0 ∨ off.2 ≠ 0) ∧ adj.hasDot = true)) &&
      decide (¬(|off.1| < b.1 ∧ |off.2| < b.2 ∧ adj.edgeSet = true))

/-- `a, a+2, ..., ≤ b` — the stepped loops of `generate_try_block`. -/
def rangeStep2 (a b : Int) : List Int :=
  if b < a then []
  else (List.range ((b - a).toNat / 2 + 1)).map fun i => a + 2 * Int.ofNat i

/-- The `outside` tile collection of `generate_try_block`: one step beyond
the rectangle in each cardinal direction, capped at `MAX_OUTSIDE = 100`
entries. -/
def collectOutside (s : GState) (x1 y1 x2 y2 : Int) : List (Int × Int) :=
  (((rangeStep2 x1 x2).flatMap fun x =>
      (if 2 ≤ y1 then [(x, y1 - 2)] else []) ++
      (if y2 ≤ gsy s - 3 then [(x, y2 + 2)] else [])) ++
   ((rangeStep2 y1 y2).flatMap fun y =>
      (if 2 ≤ x1 then [(x1 - 2, y)] else []) ++
      (if x2 ≤ gsx s - 3 then [(x2 + 2, y)] else []))).take 100

/-- One iteration of the outside-tile loop of `generate_try_block`: an
associated outside tile names its owning dot; the dot is skipped when its
`nassoc` is at least `maxsz`, otherwise `dot_expand_or_move` is tried. -/
def tryOutside (maxsz : Nat) (toadd : List (Int × Int))
    (acc : Bool × GState) (o : Int × Int) : Bool × GState :=
  if acc.1 then acc
  else
    let st := acc.2
    if (st.cell o.1 o.2).assoc = false then acc
    else
      let dx := (st.cell o.1 o.2).dotx
      let dy := (st.cell o.1 o.2).doty
      if maxsz ≤ (st.cell dx dy).nassoc then acc
      else dot_expand_or_move st dx dy toadd

/-- `generate_try_block` with the shuffle of the outside list abstracted
as a permutation parameter `σ`.  The first component records the divisor
`state->ndots` read by the `maxsz` computation, whenever control reaches
it (i.e. when the bounds check passes); in C this division is undefined
when `ndots` is zero. -/
def generate_try_block (σ : List (Int × Int) → List (Int × Int)) (s : GState)
    (x1 y1 x2 y2 : Int) : Option Nat × Bool × GState :=
  if x1 < 0 ∨ y1 < 0 ∨ x2 ≥ gsx s ∨ y2 ≥ gsy s then (none, false, s)
  else
    let divisor := s.ndots
    let maxsz0 := (s.w * s.h) / s.ndots
    let maxsz := if maxsz0 < 4 then 4 else maxsz0
    let toadd := (rangeStep2 y1 y2).flatMap fun y => (rangeStep2 x1 x2).map fun x => (x, y)
    if toadd.any (fun t => (s.cell t.1 t.2).assoc) ∨ 20 < toadd.length then
      (some divisor, false, s)
    else
      let outside := collectOutside s x1 y1 x2 y2
      (some divisor, (σ outside).foldl (tryOutside maxsz toadd) (false, s))

/-- The candidate cell's internal coordinates from its scratch index. -/
def passX (st : GState) (idx : Nat) : Int := Int.ofNat (idx % (gsx st).toNat)

/-- The candidate cell's internal row from its scratch index. -/
def passY (st : GState) (idx : Nat) : Int := Int.ofNat (idx / (gsx st).toNat)

/-- The block rectangle of a candidate cell: the single tile, or the two
tiles flanking an edge. -/
def passRect (x y : Int) : Int × Int × Int × Int :=
  if x % 2 = 0 ∧ y % 2 ≠ 0 then (x - 1, y, x + 1, y)
  else if x % 2 ≠ 0 ∧ y % 2 = 0 then (x, y - 1, x, y + 1)
  else (x, y, x, y)

/-- The block attempt of one candidate: vertices are skipped. -/
def passTry (σ : List (Int × Int) → List (Int × Int)) (st : GState) (x y : Int) :
    Option Nat × Bool × GState :=
  if ¬(x % 2 = 0 ∧ y % 2 = 0) then
    generate_try_block σ st (passRect x y).1 (passRect x y).2.1
      (passRect x y).2.2.1 (passRect x y).2.2.2
  else (none, false, st)

/-- The dot-placement arm of one candidate: edges are only tried on every
other visit, and a dot is added (and propagated) only where
`dot_is_possible` holds. -/
def passDot (st : GState) (x y : Int) (i : Nat) : GState :=
  if ((x % 2 = 0 ∧ y % 2 ≠ 0) ∨ (x % 2 ≠ 0 ∧ y % 2 = 0)) ∧ i % 2 = 1 then st
  else if dot_is_possible st x y false then solver_obvious_dot (add_dot st x y) x y
  else st

/-- The recorded-divisor fragment of one candidate. -/
def recOf : Option Nat → List Nat
  | none => []
  | some v => [v]

/-- One candidate cell of `generate_pass` (with `GP_DOTS` set, the only
flag value used): a block attempt for non-vertices, then the
dot-placement arm when the block attempt failed. -/
def passStep (σ : List (Int × Int) → List (Int × Int))
    (acc : GState × List Nat) (ii : Nat × Nat) : GState × List Nat :=
  if (passTry σ acc.1 (passX acc.1 ii.2) (passY acc.1 ii.2)).2.1 then
    ((passTry σ acc.1 (passX acc.1 ii.2) (passY acc.1 ii.2)).2.2,
     acc.2 ++ recOf (passTry σ acc.1 (passX acc.1 ii.2) (passY acc.1 ii.2)).1)
  else
    (passDot (passTry σ acc.1 (passX acc.1 ii.2) (passY acc.1 ii.2)).2.2
       (passX acc.1 ii.2) (passY acc.1 ii.2) ii.1,
     acc.2 ++ recOf (passTry σ acc.1 (passX acc.1 ii.2) (passY acc.1 ii.2)).1)

/-- `generate_pass` with the shuffled scratch array given as `order` and
the outside-shuffle as `σ`; also returns the list of divisors read by
`generate_try_block`. -/
def generate_pass (σ : List (Int × Int) → List (Int × Int)) (s0 : GState)
    (order : List Nat) (perc : Nat) : GState × List Nat :=
  ((order.take ((perc * ((gsx s0).toNat * (gsy s0).toNat)) / 100)).enum).foldl
    (passStep σ) (s0, [])

/-! ### C1: the divisor of the `maxsz` computation -/

theorem assocTile_ndots (s : GState) (tx ty dx dy : Int) :
    (assocTile s tx ty dx dy).ndots = s.ndots := rfl

theorem scanStep_ndots (dx dy : Int) (s : GState) (t : Int × Int) :
    (scanStep dx dy s t).ndots = s.ndots := by
  rw [scanStep]
  repeat' first
  | split
  | rfl
  | dsimp only

theorem foldl_ndots {α : Type} (f : GState → α → GState)
    (hf : ∀ s a, (f s a).ndots = s.ndots) :
    ∀ (l : List α) (s : GState), (l.foldl f s).ndots = s.ndots := by
  intro l
  induction l with
  | nil => intro s; rfl
  | cons a l ih => intro s; rw [List.foldl_cons, ih, hf]

theorem sod_ndots (s : GState) (dx dy : Int) :
    (solver_obvious_dot s dx dy).ndots = s.ndots :=
  foldl_ndots _ (scanStep_ndots dx dy) _ s

theorem expandAdd_ndots (dx dy : Int) (s : GState) (t : Int × Int) :
    (expandAdd dx dy s t).ndots = s.ndots := by
  rw [expandAdd]
  repeat' first
  | split
  | rfl
  | dsimp only

theorem deom_ndots (s : GState) (dx dy : Int) (toadd : List (Int × Int)) :
    (dot_expand_or_move s dx dy toadd).2.ndots = s.ndots := by
  rw [dot_expand_or_move]
  split
  · rfl
  · show (solver_obvious_dot _ _ _).ndots = s.ndots
    rw [sod_ndots, foldl_ndots _ (expandAdd_ndots dx dy)]

theorem tryOutside_ndots (maxsz : Nat) (toadd : List (Int × Int))
    (acc : Bool × GState) (o : Int × Int) :
    (tryOutside maxsz toadd acc o).2.ndots = acc.2.ndots := by
  rw [tryOutside]
  repeat' first
  | split
  | rfl
  | exact deom_ndots _ _ _ _
  | dsimp only

theorem foldl_tryOutside_ndots (maxsz : Nat) (toadd : List (Int × Int)) :
    ∀ (l : List (Int × Int)) (acc : Bool × GState),
      (l.foldl (tryOutside maxsz toadd) acc).2.ndots = acc.2.ndots := by
  intro l
  induction l with
  | nil => intro acc; rfl
  | cons o l ih => intro acc; rw [List.foldl_cons, ih, tryOutside_ndots]

theorem gtb_ndots (σ : List (Int × Int) → List (Int × Int)) (s : GState)
    (x1 y1 x2 y2 : Int) :
    (generate_try_block σ s x1 y1 x2 y2).2.2.ndots = s.ndots := by
  rw [generate_try_block]
  repeat' first
  | split
  | rfl
  | exact foldl_tryOutside_ndots _ _ _ _
  | dsimp only

/-- Whenever the bounds check passes, `generate_try_block` records exactly
the current `state->ndots` as the divisor it is about to divide by. -/
theorem gtb_divisor (σ : List (Int × Int) → List (Int × Int)) (s : GState)
    (x1 y1 x2 y2 : Int) (v : Nat)
    (h : (generate_try_block σ s x1 y1 x2 y2).1 = some v) : v = s.ndots := by
  rw [generate_try_block] at h
  by_cases hb : x1 < 0 ∨ y1 < 0 ∨ x2 ≥ gsx s ∨ y2 ≥ gsy s
  · rw [if_pos hb] at h
    exact absurd h (by simp)
  · rw [if_neg hb] at h
    dsimp only at h
    split at h
    · exact (Option.some_injective _ h).symm
    · exact (Option.some_injective _ h).symm

theorem add_dot_ndots (s : GState) (x y : Int) : (add_dot s x y).ndots = s.ndots := rfl

theorem passTry_ndots (σ : List (Int × Int) → List (Int × Int)) (st : GState)
    (x y : Int) : (passTry σ st x y).2.2.ndots = st.ndots := by
  rw [passTry]
  split
  · exact gtb_ndots _ _ _ _ _ _
  · rfl

theorem passTry_divisor (σ : List (Int × Int) → List (Int × Int)) (st : GState)
    (x y : Int) (v : Nat) (h : (passTry σ st x y).1 = some v) : v = st.ndots := by
  rw [passTry] at h
  split at h
  · exact gtb_divisor _ _ _ _ _ _ _ h
  · exact absurd h (by simp)

theorem passDot_ndots (st : GState) (x y : Int) (i : Nat) :
    (passDot st x y i).ndots = st.ndots := by
  rw [passDot]
  repeat' first
  | split
  | rfl
  | rw [sod_ndots, add_dot_ndots]

/-- Through the whole pass the state's recorded dot count never changes
(nothing inside the pass calls `game_update_dots`), and every divisor read
by `generate_try_block` equals the dot count the pass started with. -/
theorem generate_pass_inv (σ : List (Int × Int) → List (Int × Int)) (s0 : GState)
    (order : List Nat) (perc : Nat) :
    (generate_pass σ s0 order perc).1.ndots = s0.ndots ∧
      ∀ v ∈ (generate_pass σ s0 order perc).2, v = s0.ndots := by
  rw [generate_pass]
  have haux : ∀ (l : List (Nat × Nat)) (acc : GState × List Nat),
      acc.1.ndots = s0.ndots → (∀ v ∈ acc.2, v = s0.ndots) →
      (l.foldl (passStep σ) acc).1.ndots = s0.ndots ∧
        ∀ v ∈ (l.foldl (passStep σ) acc).2, v = s0.ndots := by
    intro l
    induction l with
    | nil => intro acc h1 h2; exact ⟨h1, h2⟩
    | cons ii l ih =>
      intro acc h1 h2
      rw [List.foldl_cons]
      have hrec : ∀ v ∈ acc.2 ++ recOf (passTry σ acc.1 (passX acc.1 ii.2)
          (passY acc.1 ii.2)).1, v = s0.ndots := by
        intro v hv
        rcases List.mem_append.mp hv with h | h
        · exact h2 v h
        · match hro : (passTry σ acc.1 (passX acc.1 ii.2) (passY acc.1 ii.2)).1 with
          | none => rw [hro] at h; exact absurd h (List.not_mem_nil _)
          | some u =>
            rw [hro] at h
            rcases List.mem_cons.mp h with rfl | h
            · rw [passTry_divisor σ acc.1 _ _ v hro, h1]
            · exact absurd h (List.not_mem_nil _)
      apply ih
      · rw [passStep]
        split
        · show (passTry σ acc.1 _ _).2.2.ndots = s0.ndots
          rw [passTry_ndots, h1]
        · show (passDot (passTry σ acc.1 _ _).2.2 _ _ _).ndots = s0.ndots
          rw [passDot_ndots, passTry_ndots, h1]
      · rw [passStep]
        split
        · exact hrec
        · exact hrec
  exact haux _ _ rfl (by intro v hv; exact absurd hv (List.not_mem_nil _))

/-- C1: the claim fails on the code — `generate_pass` never updates
`state->ndots` (only `game_update_dots`, run after the pass, does), so on
the cleared board every invocation of `generate_try_block` that reaches
the `maxsz` computation reads divisor 0; on a 1×1 board with the identity
shuffle the single tile candidate does reach it.  In C this division by
zero is undefined behaviour. -/
theorem claim_C1_theorem :
    (∀ (w h : Nat) (σ : List (Int × Int) → List (Int × Int))
       (order : List Nat) (perc : Nat),
       ((generate_pass σ (clear_game (blank_game w h)) order perc).2).all
         (fun v => decide (v = 0)) = true) ∧
    (generate_pass id (clear_game (blank_game 1 1)) (List.range 9) 100).2 = [0] := by
  constructor
  · intro w h σ order perc
    apply List.all_eq_true.mpr
    intro v hv
    apply decide_eq_true
    exact (generate_pass_inv σ (clear_game (blank_game w h)) order perc).2 v hv
  · decide

/-! ### C10: the `nassoc` bookkeeping invariant -/

/-- Membership in the scan order is exactly: in grid with both
coordinates odd (a tile). -/
theorem mem_tileScanList (s : GState) (a b : Int) :
    (a, b) ∈ tileScanList s ↔
      (0 ≤ a ∧ a < gsx s ∧ 0 ≤ b ∧ b < gsy s ∧ a % 2 = 1 ∧ b % 2 = 1) := by
  rw [tileScanList, gsx, gsy]
  constructor
  · intro hh
    obtain ⟨i, hi, hmem⟩ := List.mem_flatMap.mp hh
    obtain ⟨j, hj, hne⟩ := List.mem_map.mp hmem
    simp only [Prod.mk.injEq, Int.ofNat_eq_coe] at hne
    have h1 := List.mem_range.mp hi
    have h2 := List.mem_range.mp hj
    obtain ⟨he1, he2⟩ := hne
    omega
  · intro hb
    apply List.mem_flatMap.mpr
    refine ⟨a.toNat / 2, List.mem_range.mpr (by omega), ?_⟩
    apply List.mem_map.mpr
    refine ⟨b.toNat / 2, List.mem_range.mpr (by omega), ?_⟩
    simp only [Prod.mk.injEq, Int.ofNat_eq_coe]
    omega

theorem tileScanList_nodup (s : GState) : (tileScanList s).Nodup := by
  rw [tileScanList]
  apply List.nodup_flatMap.mpr
  constructor
  · intro i _
    apply List.Nodup.map _ (List.nodup_range _)
    intro a b hab
    simpa using congrArg Prod.snd hab
  · apply List.Pairwise.imp_of_mem _ (List.nodup_range s.w)
    intro i1 i2 _ _ hne
    intro c h1 h2
    obtain ⟨a, _, ha⟩ := List.mem_map.mp h1
    obtain ⟨b, _, hb⟩ := List.mem_map.mp h2
    have e1 := congrArg Prod.fst ha
    have e2 := congrArg Prod.fst hb
    have : Int.ofNat (2 * i1 + 1) = Int.ofNat (2 * i2 + 1) := e1.trans e2.symm
    exact hne (by simp only [Int.ofNat_eq_coe, Nat.cast_inj] at this; omega)

/-- A filter whose predicate flips from false to true at exactly one
listed element grows by one. -/
theorem filter_length_flip (p p2 : (Int × Int) → Bool) :
    ∀ (l : List (Int × Int)), l.Nodup → ∀ c ∈ l, (∀ t ∈ l, t ≠ c → p2 t = p t) →
      p c = false → p2 c = true →
      (l.filter p2).length = (l.filter p).length + 1 := by
  intro l
  induction l with
  | nil => intro _ c hc; exact absurd hc (List.not_mem_nil _)
  | cons t l ih =>
    intro hnd c hc hagree hpc hpc2
    obtain ⟨hnotmem, hndl⟩ := List.nodup_cons.mp hnd
    rcases List.mem_cons.mp hc with rfl | hcl
    · have hrest : ∀ u ∈ l, p2 u = p u := fun u hu =>
        hagree u (List.mem_cons_of_mem _ hu) (fun h => hnotmem (h ▸ hu))
      rw [List.filter_cons_of_pos hpc2, List.filter_cons_of_neg (by simp [hpc]),
        List.filter_congr hrest, List.length_cons]
    · have ht2 : p2 t = p t := hagree t (List.mem_cons_self _ _) (fun h => hnotmem (h ▸ hcl))
      have hrec := ih hndl c hcl (fun u hu hne => hagree u (List.mem_cons_of_mem _ hu) hne)
        hpc hpc2
      by_cases hpt : p t = true
      · rw [List.filter_cons_of_pos hpt, List.filter_cons_of_pos (ht2.trans hpt),
          List.length_cons, List.length_cons, hrec]
      · have hpf : ¬ p2 t = true := by rw [ht2]; exact hpt
        rw [List.filter_cons_of_neg hpt, List.filter_cons_of_neg hpf, hrec]

/-- Whether a tile records `(a,b)` as its owning dot. -/
def ptsTo (s : GState) (a b : Int) (t : Int × Int) : Bool :=
  decide ((s.cell t.1 t.2).dotx = a ∧ (s.cell t.1 t.2).doty = b)

/-- The number of tiles whose recorded owning-dot coordinates are
`(a,b)`. -/
def countTiles (s : GState) (a b : Int) : Nat :=
  ((tileScanList s).filter (ptsTo s a b)).length

/-- The bookkeeping invariant the generator maintains: unassociated tiles
carry no stale owner record, and every dot's `nassoc` equals the number of
tiles recorded to it. -/
def GenInv (s : GState) : Prop :=
  (∀ x y : Int, GINGRID s x y = true → x % 2 = 1 → y % 2 = 1 →
     (s.cell x y).assoc = false → (s.cell x y).dotx = -1 ∧ (s.cell x y).doty = -1) ∧
  (∀ x y : Int, GINGRID s x y = true → (s.cell x y).hasDot = true →
     (s.cell x y).nassoc = countTiles s x y)

theorem tileScanList_assocTile (s : GState) (tx ty dx dy : Int) :
    tileScanList (assocTile s tx ty dx dy) = tileScanList s := rfl

theorem GINGRID_assocTile (s : GState) (tx ty dx dy a b : Int) :
    GINGRID (assocTile s tx ty dx dy) a b = GINGRID s a b := rfl

theorem assocTile_cell_nassoc (s : GState) (tx ty dx dy a b : Int) :
    ((assocTile s tx ty dx dy).cell a b).nassoc =
      (s.cell a b).nassoc + (if a = dx ∧ b = dy then 1 else 0) := by
  rw [assocTile, setCell_eval]
  by_cases hd : a = dx ∧ b = dy
  · rw [if_pos hd, if_pos hd, setCell_eval]
    by_cases ht : dx = tx ∧ dy = ty
    · rw [if_pos ht, hd.1, hd.2, ht.1, ht.2]
    · rw [if_neg ht, hd.1, hd.2]
  · rw [if_neg hd, if_neg hd, setCell_eval]
    by_cases ht : a = tx ∧ b = ty
    · rw [if_pos ht, ht.1, ht.2]
      exact (Nat.add_zero _).symm
    · rw [if_neg ht]
      exact (Nat.add_zero _).symm

theorem assocTile_cell_assoc (s : GState) (tx ty dx dy a b : Int) :
    ((assocTile s tx ty dx dy).cell a b).assoc =
      (if a = tx ∧ b = ty then true else (s.cell a b).assoc) := by
  rw [assocTile, setCell_eval]
  by_cases hd : a = dx ∧ b = dy
  · rw [if_pos hd, setCell_eval]
    by_cases ht : a = tx ∧ b = ty
    · have ht2 : dx = tx ∧ dy = ty := ⟨hd.1.symm.trans ht.1, hd.2.symm.trans ht.2⟩
      rw [if_pos ht2, if_pos ht]
    · have ht2 : ¬(dx = tx ∧ dy = ty) := fun h => ht ⟨hd.1.trans h.1, hd.2.trans h.2⟩
      rw [if_neg ht2, if_neg ht, hd.1, hd.2]
  · rw [if_neg hd, setCell_eval]
    by_cases ht : a = tx ∧ b = ty
    · rw [if_pos ht, if_pos ht]
    · rw [if_neg ht, if_neg ht]

theorem assocTile_cell_dotx (s : GState) (tx ty dx dy a b : Int) :
    ((assocTile s tx ty dx dy).cell a b).dotx =
      (if a = tx ∧ b = ty then dx else (s.cell a b).dotx) := by
  rw [assocTile, setCell_eval]
  by_cases hd : a = dx ∧ b = dy
  · rw [if_pos hd, setCell_eval]
    by_cases ht : a = tx ∧ b = ty
    · have ht2 : dx = tx ∧ dy = ty := ⟨hd.1.symm.trans ht.1, hd.2.symm.trans ht.2⟩
      rw [if_pos ht2, if_pos ht]
    · have ht2 : ¬(dx = tx ∧ dy = ty) := fun h => ht ⟨hd.1.trans h.1, hd.2.trans h.2⟩
      rw [if_neg ht2, if_neg ht, hd.1, hd.2]
  · rw [if_neg hd, setCell_eval]
    by_cases ht : a = tx ∧ b = ty
    · rw [if_pos ht, if_pos ht]
    · rw [if_neg ht, if_neg ht]

theorem assocTile_cell_doty (s : GState) (tx ty dx dy a b : Int) :
    ((assocTile s tx ty dx dy).cell a b).doty =
      (if a = tx ∧ b = ty then dy else (s.cell a b).doty) := by
  rw [assocTile, setCell_eval]
  by_cases hd : a = dx ∧ b = dy
  · rw [if_pos hd, setCell_eval]
    by_cases ht : a = tx ∧ b = ty
    · have ht2 : dx = tx ∧ dy = ty := ⟨hd.1.symm.trans ht.1, hd.2.symm.trans ht.2⟩
      rw [if_pos ht2, if_pos ht]
    · have ht2 : ¬(dx = tx ∧ dy = ty) := fun h => ht ⟨hd.1.trans h.1, hd.2.trans h.2⟩
      rw [if_neg ht2, if_neg ht, hd.1, hd.2]
  · rw [if_neg hd, setCell_eval]
    by_cases ht : a = tx ∧ b = ty
    · rw [if_pos ht, if_pos ht]
    · rw [if_neg ht, if_neg ht]

theorem assocTile_cell_hasDot (s : GState) (tx ty dx dy a b : Int) :
    ((assocTile s tx ty dx dy).cell a b).hasDot = (s.cell a b).hasDot := by
  rw [assocTile, setCell_eval]
  by_cases hd : a = dx ∧ b = dy
  · rw [if_pos hd, setCell_eval]
    by_cases ht : dx = tx ∧ dy = ty
    · rw [if_pos ht, hd.1, hd.2, ht.1, ht.2]
    · rw [if_neg ht, hd.1, hd.2]
  · rw [if_neg hd, setCell_eval]
    by_cases ht : a = tx ∧ b = ty
    · rw [if_pos ht, ht.1, ht.2]
    · rw [if_neg ht]

theorem GINGRID_bounds (s : GState) (a b : Int) (h : GINGRID s a b = true) :
    0 ≤ a ∧ a < gsx s ∧ 0 ≤ b ∧ b < gsy s := of_decide_eq_true h

theorem ptsTo_assocTile (s : GState) (t : Int × Int) (dx dy a b : Int) (u : Int × Int) :
    ptsTo (assocTile s t.1 t.2 dx dy) a b u =
      if u.1 = t.1 ∧ u.2 = t.2 then decide (dx = a ∧ dy = b) else ptsTo s a b u := by
  rw [ptsTo, ptsTo, assocTile_cell_dotx, assocTile_cell_doty]
  by_cases hu : u.1 = t.1 ∧ u.2 = t.2
  · rw [if_pos hu, if_pos hu, if_pos hu]
  · rw [if_neg hu, if_neg hu, if_neg hu]

/-- Associating a tile whose stale owner record does not read `(a,b)` bumps
the owner count of `(a,b)` exactly when the new owner is `(a,b)`. -/
theorem countTiles_assocTile (s : GState) (t : Int × Int) (dx dy a b : Int)
    (ht : t ∈ tileScanList s) (hold : ptsTo s a b t = false) :
    countTiles (assocTile s t.1 t.2 dx dy) a b =
      countTiles s a b + (if dx = a ∧ dy = b then 1 else 0) := by
  rw [countTiles, countTiles, tileScanList_assocTile]
  by_cases hmatch : dx = a ∧ dy = b
  · rw [if_pos hmatch]
    apply filter_length_flip (ptsTo s a b) _ _ (tileScanList_nodup s) t ht
    · intro u hu hne
      rw [ptsTo_assocTile]
      exact if_neg (fun hc => hne (Prod.ext_iff.mpr hc))
    · exact hold
    · rw [ptsTo_assocTile, if_pos ⟨rfl, rfl⟩]
      exact decide_eq_true hmatch
  · rw [if_neg hmatch, Nat.add_zero]
    apply congrArg List.length
    apply List.filter_congr
    intro u hu
    rw [ptsTo_assocTile]
    by_cases hc : u.1 = t.1 ∧ u.2 = t.2
    · rw [if_pos hc, decide_eq_false hmatch]
      have : u = t := Prod.ext_iff.mpr hc
      rw [this, hold]
    · exact if_neg hc

/-- `assocTile` on an unassociated in-grid tile preserves the bookkeeping
invariant, whatever cell the owner coordinates point at. -/
theorem assocTile_inv (s : GState) (t : Int × Int) (dx dy : Int)
    (hI : GenInv s) (ht : t ∈ tileScanList s)
    (hun : (s.cell t.1 t.2).assoc = false) :
    GenInv (assocTile s t.1 t.2 dx dy) := by
  obtain ⟨hI2, hI1⟩ := hI
  have ht' : (t.1, t.2) ∈ tileScanList s := by rwa [Prod.mk.eta]
  have htg := (mem_tileScanList s t.1 t.2).mp ht'
  have htging : GINGRID s t.1 t.2 = true :=
    decide_eq_true ⟨htg.1, htg.2.1, htg.2.2.1, htg.2.2.2.1⟩
  have hdot := hI2 t.1 t.2 htging htg.2.2.2.2.1 htg.2.2.2.2.2 hun
  constructor
  · intro x y hg hx hy hassoc
    rw [GINGRID_assocTile] at hg
    rw [assocTile_cell_assoc] at hassoc
    by_cases hxy : x = t.1 ∧ y = t.2
    · rw [if_pos hxy] at hassoc
      exact Bool.noConfusion hassoc
    · rw [if_neg hxy] at hassoc
      rw [assocTile_cell_dotx, assocTile_cell_doty, if_neg hxy, if_neg hxy]
      exact hI2 x y hg hx hy hassoc
  · intro x y hg hdot2
    rw [GINGRID_assocTile] at hg
    rw [assocTile_cell_hasDot] at hdot2
    rw [assocTile_cell_nassoc]
    have hcnt : countTiles (assocTile s t.1 t.2 dx dy) x y =
        countTiles s x y + (if dx = x ∧ dy = y then 1 else 0) := by
      apply countTiles_assocTile s t dx dy x y ht
      rw [ptsTo]
      apply decide_eq_false
      intro hcontra
      have hx0 : 0 ≤ x := (GINGRID_bounds s x y hg).1
      rw [hdot.1] at hcontra
      omega
    rw [hcnt, hI1 x y hg hdot2]
    by_cases hm : x = dx ∧ y = dy
    · rw [if_pos hm, if_pos ⟨hm.1.symm, hm.2.symm⟩]
    · rw [if_neg hm, if_neg (fun h => hm ⟨h.1.symm, h.2.symm⟩)]

theorem countTiles_congr (s s2 : GState) (hw : s2.w = s.w) (hh : s2.h = s.h)
    (hsame : ∀ u ∈ tileScanList s, (s2.cell u.1 u.2).dotx = (s.cell u.1 u.2).dotx ∧
      (s2.cell u.1 u.2).doty = (s.cell u.1 u.2).doty) (a b : Int) :
    countTiles s2 a b = countTiles s a b := by
  rw [countTiles, countTiles]
  have hl : tileScanList s2 = tileScanList s := by rw [tileScanList, tileScanList, hw, hh]
  rw [hl]
  apply congrArg List.length
  apply List.filter_congr
  intro u hu
  rw [ptsTo, ptsTo, (hsame u hu).1, (hsame u hu).2]

/-- The mirror of an in-grid tile about any cell is again an in-grid tile
whenever `space_opposite_dot` accepts it. -/
theorem opp_mem (s : GState) (t : Int × Int) (dx dy : Int) (o : Int × Int)
    (ht : t ∈ tileScanList s)
    (heq : space_opposite_dot s t.1 t.2 dx dy = some o) :
    o ∈ tileScanList s ∧ o.1 = dx + (dx - t.1) ∧ o.2 = dy + (dy - t.2) := by
  have ht' : (t.1, t.2) ∈ tileScanList s := by rwa [Prod.mk.eta]
  have htg := (mem_tileScanList s t.1 t.2).mp ht'
  simp only [space_opposite_dot] at heq
  split at heq
  · rename_i hg
    injection heq with ho
    subst ho
    have hb := GINGRID_bounds s _ _ hg
    refine ⟨?_, rfl, rfl⟩
    have : (dx + (dx - t.1), dy + (dy - t.2)) ∈ tileScanList s :=
      (mem_tileScanList s _ _).mpr ⟨hb.1, hb.2.1, hb.2.2.1, hb.2.2.2, by omega, by omega⟩
    exact this
  · exact Option.noConfusion heq

/-- `scanStep` keeps the grid dimensions and every dot flag. -/
theorem scanStep_pres (dx dy : Int) (s : GState) (t : Int × Int) :
    (scanStep dx dy s t).w = s.w ∧ (scanStep dx dy s t).h = s.h ∧
      ∀ a b : Int, ((scanStep dx dy s t).cell a b).hasDot = (s.cell a b).hasDot := by
  rw [scanStep]
  split
  · exact ⟨rfl, rfl, fun a b => rfl⟩
  · split
    · exact ⟨rfl, rfl, fun a b => rfl⟩
    · split
      · exact ⟨rfl, rfl, fun a b => rfl⟩
      · dsimp only
        split
        · exact ⟨rfl, rfl, fun a b => by rw [assocTile_cell_hasDot]⟩
        · exact ⟨rfl, rfl, fun a b => by
            rw [assocTile_cell_hasDot, assocTile_cell_hasDot]⟩

/-- A cell already associated to the dot `(dx,dy)` is untouched (in those
fields) by any `assocTile` targeting the same dot. -/
theorem assocTile_keeps (s : GState) (tx ty dx dy a b : Int)
    (h : (s.cell a b).assoc = true ∧ (s.cell a b).dotx = dx ∧ (s.cell a b).doty = dy) :
    ((assocTile s tx ty dx dy).cell a b).assoc = true ∧
      ((assocTile s tx ty dx dy).cell a b).dotx = dx ∧
      ((assocTile s tx ty dx dy).cell a b).doty = dy := by
  rw [assocTile_cell_assoc, assocTile_cell_dotx, assocTile_cell_doty]
  by_cases hc : a = tx ∧ b = ty
  · rw [if_pos hc, if_pos hc, if_pos hc]
    exact ⟨rfl, rfl, rfl⟩
  · rw [if_neg hc, if_neg hc, if_neg hc]
    exact h

theorem scanStep_keeps (dx dy : Int) (s : GState) (t : Int × Int) (a b : Int)
    (h : (s.cell a b).assoc = true ∧ (s.cell a b).dotx = dx ∧ (s.cell a b).doty = dy) :
    ((scanStep dx dy s t).cell a b).assoc = true ∧
      ((scanStep dx dy s t).cell a b).dotx = dx ∧
      ((scanStep dx dy s t).cell a b).doty = dy := by
  rw [scanStep]
  split
  · exact h
  · split
    · exact h
    · split
      · exact h
      · dsimp only
        split
        · exact assocTile_keeps s t.1 t.2 dx dy a b h
        · exact assocTile_keeps _ _ _ dx dy a b (assocTile_keeps s t.1 t.2 dx dy a b h)

/-- One scan step preserves the bookkeeping invariant. -/
theorem scanStep_inv (dx dy : Int) (s : GState) (t : Int × Int)
    (hI : GenInv s) (ht : t ∈ tileScanList s) : GenInv (scanStep dx dy s t) := by
  rw [scanStep]
  split
  · exact hI
  · rename_i hA
    split
    · exact hI
    · rename_i o heq
      split
      · exact hI
      · dsimp only
        have hun : (s.cell t.1 t.2).assoc = false := by
          revert hA
          cases (s.cell t.1 t.2).assoc <;> simp
        have hI1 : GenInv (assocTile s t.1 t.2 dx dy) := assocTile_inv s t dx dy hI ht hun
        have ho := opp_mem s t dx dy o ht heq
        split
        · exact hI1
        · rename_i hO
          have hun2 : ((assocTile s t.1 t.2 dx dy).cell o.1 o.2).assoc = false := by
            revert hO
            cases ((assocTile s t.1 t.2 dx dy).cell o.1 o.2).assoc <;> simp
          exact assocTile_inv _ o dx dy hI1 (by rw [tileScanList_assocTile]; exact ho.1) hun2

theorem scanFold_inv (dx dy : Int) (s0 : GState) :
    ∀ (l : List (Int × Int)) (s : GState), GenInv s → s.w = s0.w → s.h = s0.h →
      (∀ t ∈ l, t ∈ tileScanList s0) →
      GenInv (l.foldl (scanStep dx dy) s) ∧ (l.foldl (scanStep dx dy) s).w = s0.w ∧
        (l.foldl (scanStep dx dy) s).h = s0.h := by
  intro l
  induction l with
  | nil => intro s hI hw hh _; exact ⟨hI, hw, hh⟩
  | cons t l ih =>
    intro s hI hw hh hmem
    rw [List.foldl_cons]
    have hp := scanStep_pres dx dy s t
    have htl : tileScanList s = tileScanList s0 := by
      rw [tileScanList, tileScanList, hw, hh]
    refine ih (scanStep dx dy s t)
      (scanStep_inv dx dy s t hI (by rw [htl]; exact hmem t (List.mem_cons_self _ _)))
      (by rw [hp.1, hw]) (by rw [hp.2.1, hh]) ?_
    intro u hu
    exact hmem u (List.mem_cons_of_mem _ hu)

/-- `solver_obvious_dot` preserves the bookkeeping invariant and the grid
dimensions una conditionally. -/
theorem sod_inv (s : GState) (dx dy : Int) (hI : GenInv s) :
    GenInv (solver_obvious_dot s dx dy) ∧ (solver_obvious_dot s dx dy).w = s.w ∧
      (solver_obvious_dot s dx dy).h = s.h := by
  rw [solver_obvious_dot]
  exact scanFold_inv dx dy s (tileScanList s) s hI rfl rfl (fun t ht => ht)

theorem expandAdd_pres (dx dy : Int) (s : GState) (t : Int × Int) :
    (expandAdd dx dy s t).w = s.w ∧ (expandAdd dx dy s t).h = s.h := by
  rw [expandAdd]
  split
  · exact ⟨rfl, rfl⟩
  · split
    · exact ⟨rfl, rfl⟩
    · exact ⟨rfl, rfl⟩

theorem expandAdd_inv (dx dy : Int) (s : GState) (t : Int × Int)
    (hI : GenInv s) (ht : t ∈ tileScanList s)
    (hun : (s.cell t.1 t.2).assoc = false) : GenInv (expandAdd dx dy s t) := by
  rw [expandAdd]
  have hI1 : GenInv (assocTile s t.1 t.2 dx dy) := assocTile_inv s t dx dy hI ht hun
  split
  · exact hI1
  · rename_i o heq
    have ht1 : t ∈ tileScanList (assocTile s t.1 t.2 dx dy) := by
      rw [tileScanList_assocTile]; exact ht
    have ho := opp_mem _ t dx dy o ht1 heq
    split
    · exact hI1
    · rename_i hO
      have hun2 : ((assocTile s t.1 t.2 dx dy).cell o.1 o.2).assoc = false := by
        revert hO
        cases ((assocTile s t.1 t.2 dx dy).cell o.1 o.2).assoc <;> simp
      exact assocTile_inv _ o dx dy hI1 ho.1 hun2

theorem expandAdd_cell_other (dx dy : Int) (s : GState) (t u : Int × Int)
    (hu1 : u ≠ t) (hu2 : u ≠ (dx + (dx - t.1), dy + (dy - t.2))) :
    ((expandAdd dx dy s t).cell u.1 u.2).assoc = (s.cell u.1 u.2).assoc := by
  rw [expandAdd]
  have h1 : ((assocTile s t.1 t.2 dx dy).cell u.1 u.2).assoc = (s.cell u.1 u.2).assoc := by
    rw [assocTile_cell_assoc, if_neg]
    intro hc; exact hu1 (Prod.ext_iff.mpr hc)
  split
  · exact h1
  · rename_i o heq
    simp only [space_opposite_dot] at heq
    split at heq
    · injection heq with ho
      subst ho
      split
      · exact h1
      · rw [assocTile_cell_assoc, if_neg, h1]
        intro hc
        exact hu2 (Prod.ext_iff.mpr hc)
    · exact Option.noConfusion heq

theorem expandFold_inv (dx dy : Int) (s0 : GState) :
    ∀ (l : List (Int × Int)) (s : GState), GenInv s → s.w = s0.w → s.h = s0.h →
      l.Nodup →
      (∀ u ∈ l, u ∈ tileScanList s0 ∧ (s.cell u.1 u.2).assoc = false) →
      (∀ t ∈ l, ∀ u ∈ l, t ≠ u → u ≠ (dx + (dx - t.1), dy + (dy - t.2))) →
      GenInv (l.foldl (expandAdd dx dy) s) ∧ (l.foldl (expandAdd dx dy) s).w = s0.w ∧
        (l.foldl (expandAdd dx dy) s).h = s0.h := by
  intro l
  induction l with
  | nil => intro s hI hw hh _ _ _; exact ⟨hI, hw, hh⟩
  | cons t l ih =>
    intro s hI hw hh hnd hmem hmir
    rw [List.foldl_cons]
    obtain ⟨hnotmem, hndl⟩ := List.nodup_cons.mp hnd
    have htl : tileScanList s = tileScanList s0 := by
      rw [tileScanList, tileScanList, hw, hh]
    have htmem : t ∈ tileScanList s := by
      rw [htl]; exact (hmem t (List.mem_cons_self _ _)).1
    have hstep : GenInv (expandAdd dx dy s t) :=
      expandAdd_inv dx dy s t hI htmem (hmem t (List.mem_cons_self _ _)).2
    have hp := expandAdd_pres dx dy s t
    refine ih (expandAdd dx dy s t) hstep (by rw [hp.1, hw]) (by rw [hp.2, hh]) hndl ?_ ?_
    · intro u hu
      refine ⟨(hmem u (List.mem_cons_of_mem _ hu)).1, ?_⟩
      rw [expandAdd_cell_other dx dy s t u (fun h => hnotmem (h ▸ hu))
        (hmir t (List.mem_cons_self _ _) u (List.mem_cons_of_mem _ hu)
          (fun h => hnotmem (h ▸ hu)))]
      exact (hmem u (List.mem_cons_of_mem _ hu)).2
    · intro a ha u hu hne
      exact hmir a (List.mem_cons_of_mem _ ha) u (List.mem_cons_of_mem _ hu) hne

/-- `dot_expand_or_move` preserves the bookkeeping invariant when it is
called the way the generator calls it: a duplicate-free list of
unassociated in-grid tiles none of which mirrors another about the dot. -/
theorem deom_inv (s : GState) (dx dy : Int) (toadd : List (Int × Int))
    (hI : GenInv s) (hnd : toadd.Nodup)
    (hmem : ∀ u ∈ toadd, u ∈ tileScanList s ∧ (s.cell u.1 u.2).assoc = false)
    (hmir : ∀ t ∈ toadd, ∀ u ∈ toadd, t ≠ u → u ≠ (dx + (dx - t.1), dy + (dy - t.2))) :
    GenInv (dot_expand_or_move s dx dy toadd).2 := by
  rw [dot_expand_or_move]
  split
  · exact hI
  · dsimp only
    have hf := expandFold_inv dx dy s toadd s hI rfl rfl hnd hmem hmir
    exact (sod_inv _ dx dy hf.1).1

theorem clear_inv (s : GState) : GenInv (clear_game s) := by
  constructor
  · intro x y hg _ _ _
    have hg' : GINGRID s x y = true := hg
    show ((if GINGRID s x y then _ else s.cell x y).dotx = -1 ∧
      (if GINGRID s x y then _ else s.cell x y).doty = -1)
    rw [if_pos hg']
    exact ⟨rfl, rfl⟩
  · intro x y hg hdot
    exfalso
    have hg' : GINGRID s x y = true := hg
    have hdot' : (if GINGRID s x y then
        ({ hasDot := false, dotBlack := false,
           edgeSet := decide (x = 0 ∨ y = 0 ∨ x = gsx s - 1 ∨ y = gsy s - 1),
           assoc := false, dotx := -1, doty := -1, nassoc := 0 } : GSpace)
      else s.cell x y).hasDot = true := hdot
    rw [if_pos hg'] at hdot'
    exact Bool.noConfusion hdot'

theorem add_dot_cell_assoc (s : GState) (x y a b : Int) :
    ((add_dot s x y).cell a b).assoc = (s.cell a b).assoc := by
  rw [add_dot, setCell_eval]
  split
  · rename_i h
    rw [h.1, h.2]
  · rfl

theorem add_dot_cell_dotx (s : GState) (x y a b : Int) :
    ((add_dot s x y).cell a b).dotx = (s.cell a b).dotx := by
  rw [add_dot, setCell_eval]
  split
  · rename_i h
    rw [h.1, h.2]
  · rfl

theorem add_dot_cell_doty (s : GState) (x y a b : Int) :
    ((add_dot s x y).cell a b).doty = (s.cell a b).doty := by
  rw [add_dot, setCell_eval]
  split
  · rename_i h
    rw [h.1, h.2]
  · rfl

theorem add_dot_cell_hasDot (s : GState) (x y a b : Int) :
    ((add_dot s x y).cell a b).hasDot =
      (if a = x ∧ b = y then true else (s.cell a b).hasDot) := by
  rw [add_dot, setCell_eval]
  split
  · rfl
  · rfl

theorem add_dot_cell_nassoc (s : GState) (x y a b : Int) :
    ((add_dot s x y).cell a b).nassoc =
      (if a = x ∧ b = y then 0 else (s.cell a b).nassoc) := by
  rw [add_dot, setCell_eval]
  split
  · rfl
  · rfl

/-- `add_dot` preserves the invariant when the new dot's cell has no tiles
recorded to it (in the generator it is placed on a dot-free cell of a
consistent board). -/
theorem add_dot_inv (s : GState) (x y : Int) (hI : GenInv s)
    (hcnt : countTiles s x y = 0) : GenInv (add_dot s x y) := by
  constructor
  · intro a b hg hx hy hassoc
    rw [add_dot_cell_assoc] at hassoc
    rw [add_dot_cell_dotx, add_dot_cell_doty]
    exact hI.1 a b hg hx hy hassoc
  · intro a b hg hdot
    have hcong : countTiles (add_dot s x y) a b = countTiles s a b :=
      countTiles_congr s (add_dot s x y) rfl rfl
        (fun u _ => ⟨add_dot_cell_dotx s x y u.1 u.2, add_dot_cell_doty s x y u.1 u.2⟩) a b
    rw [hcong, add_dot_cell_nassoc]
    by_cases hc : a = x ∧ b = y
    · rw [if_pos hc, hc.1, hc.2, hcnt]
    · rw [if_neg hc]
      apply hI.2 a b hg
      rw [add_dot_cell_hasDot, if_neg hc] at hdot
      exact hdot

/-- The board states the generator can reach: a cleared board, then any
sequence of `clear_game`, `add_dot` on a cell with no recorded tiles,
`solver_obvious_dot`, and `dot_expand_or_move` on a duplicate-free list of
unassociated in-grid tiles no two of which are mutual mirrors about the
dot — the discipline the generator's call sites obey. -/
inductive GenReach : GState → Prop where
  | init (w h : Nat) : GenReach (clear_game (blank_game w h))
  | clear (s : GState) : GenReach s → GenReach (clear_game s)
  | addDot (s : GState) (x y : Int) : GenReach s → countTiles s x y = 0 →
      GenReach (add_dot s x y)
  | scan (s : GState) (dx dy : Int) : GenReach s → GenReach (solver_obvious_dot s dx dy)
  | expand (s : GState) (dx dy : Int) (toadd : List (Int × Int)) : GenReach s →
      toadd.Nodup →
      (∀ u ∈ toadd, u ∈ tileScanList s ∧ (s.cell u.1 u.2).assoc = false) →
      (∀ t ∈ toadd, ∀ u ∈ toadd, t ≠ u → u ≠ (dx + (dx - t.1), dy + (dy - t.2))) →
      GenReach (dot_expand_or_move s dx dy toadd).2

theorem genReach_inv (s : GState) (h : GenReach s) : GenInv s := by
  induction h with
  | init w h => exact clear_inv (blank_game w h)
  | clear s _ ih => exact clear_inv s
  | addDot s x y _ hcnt ih => exact add_dot_inv s x y ih hcnt
  | scan s dx dy _ ih => exact (sod_inv s dx dy ih).1
  | expand s dx dy toadd _ hnd hmem hmir ih => exact deom_inv s dx dy toadd ih hnd hmem hmir

/-- Counterexample to C10 as stated: from a blank 2×1 board, `add_dot` at
the internal edge cell (2,1) followed by `dot_expand_or_move` with
`toadd = [(1,1),(3,1)]` — two tiles that are mutual mirrors about the dot —
leaves the dot's `nassoc` at 3 while only 2 tiles record it as owner: phase
2 associates (3,1) as the mirror of (1,1), then processes the list entry
(3,1) again unconditionally, bumping `nassoc` a second time. -/
theorem claim_C10_cex :
    ((dot_expand_or_move (add_dot (clear_game (blank_game 2 1)) 2 1) 2 1
        [(1, 1), (3, 1)]).2.cell 2 1).nassoc = 3 ∧
    countTiles (dot_expand_or_move (add_dot (clear_game (blank_game 2 1)) 2 1) 2 1
        [(1, 1), (3, 1)]).2 2 1 = 2 ∧
    ((dot_expand_or_move (add_dot (clear_game (blank_game 2 1)) 2 1) 2 1
        [(1, 1), (3, 1)]).2.cell 2 1).hasDot = true ∧
    GINGRID (dot_expand_or_move (add_dot (clear_game (blank_game 2 1)) 2 1) 2 1
        [(1, 1), (3, 1)]).2 2 1 = true := by
  decide

/-- C10 (amended): after any sequence of generator operations from a blank
board in which `add_dot` is applied to cells with no recorded tiles and
`dot_expand_or_move` to duplicate-free lists of unassociated in-grid tiles
no two of which are mutual mirrors about the dot (the generator's call
discipline), every in-grid dot's `nassoc` equals the number of tiles whose
recorded owning-dot coordinates are the dot's. -/
theorem claim_C10_theorem (s : GState) (h : GenReach s) (x y : Int)
    (hg : GINGRID s x y = true) (hdot : (s.cell x y).hasDot = true) :
    (s.cell x y).nassoc = countTiles s x y :=
  (genReach_inv s h).2 x y hg hdot

theorem claim_C10_theorem_witness :
    ((solver_obvious_dot (add_dot (clear_game (blank_game 1 1)) 1 1) 1 1).cell 1 1).nassoc =
      countTiles (solver_obvious_dot (add_dot (clear_game (blank_game 1 1)) 1 1) 1 1) 1 1 :=
  claim_C10_theorem _
    (GenReach.scan _ 1 1 (GenReach.addDot _ 1 1 (GenReach.init 1 1) (by decide)))
    1 1 (by decide) (by decide)

/-! ### C6: dot_expand_or_move's contract -/

/-- The claim's failure condition for one proposed tile: its mirror about
the dot is out of bounds, or associated to a different dot. -/
def oppBad (s : GState) (dx dy : Int) (t : Int × Int) : Prop :=
  space_opposite_dot s t.1 t.2 dx dy = none ∨
    ∃ o : Int × Int, space_opposite_dot s t.1 t.2 dx dy = some o ∧
      (s.cell o.1 o.2).assoc = true ∧
      ((s.cell o.1 o.2).dotx ≠ dx ∨ (s.cell o.1 o.2).doty ≠ dy)

theorem expandCheck_eq_false_iff (s : GState) (dx dy : Int) (t : Int × Int) :
    expandCheck s dx dy t = false ↔ oppBad s dx dy t := by
  rw [expandCheck, oppBad]
  cases heq : space_opposite_dot s t.1 t.2 dx dy with
  | none => exact ⟨fun _ => Or.inl rfl, fun _ => rfl⟩
  | some o =>
    constructor
    · intro h
      have h' := of_decide_eq_false h
      right
      exact ⟨o, rfl, not_not.mp h'⟩
    · rintro (h | ⟨o2, ho2, hcond⟩)
      · exact Option.noConfusion h
      · have ho : o2 = o := by injection ho2 with h'; exact h'.symm
        subst ho
        exact decide_eq_false (not_not.mpr hcond)

theorem GINGRID_congr (s s2 : GState) (hw : s2.w = s.w) (hh : s2.h = s.h) (x y : Int) :
    GINGRID s2 x y = GINGRID s x y := by
  rw [GINGRID, GINGRID, gsx, gsy, gsx, gsy, hw, hh]

theorem space_opposite_congr (s s2 : GState) (hw : s2.w = s.w) (hh : s2.h = s.h)
    (a b dx dy : Int) :
    space_opposite_dot s2 a b dx dy = space_opposite_dot s a b dx dy := by
  rw [space_opposite_dot, space_opposite_dot, GINGRID_congr s s2 hw hh]

theorem assocTile_assoc_mono (s : GState) (tx ty dx dy a b : Int)
    (h : (s.cell a b).assoc = true) :
    ((assocTile s tx ty dx dy).cell a b).assoc = true := by
  rw [assocTile_cell_assoc]
  by_cases hc : a = tx ∧ b = ty
  · rw [if_pos hc]
  · rw [if_neg hc]; exact h

theorem scanStep_assoc_mono (dx dy : Int) (s : GState) (t : Int × Int) (a b : Int)
    (h : (s.cell a b).assoc = true) :
    ((scanStep dx dy s t).cell a b).assoc = true := by
  rw [scanStep]
  split
  · exact h
  · split
    · exact h
    · split
      · exact h
      · dsimp only
        split
        · exact assocTile_assoc_mono s t.1 t.2 dx dy a b h
        · exact assocTile_assoc_mono _ _ _ dx dy a b (assocTile_assoc_mono s t.1 t.2 dx dy a b h)

theorem expandAdd_assoc_mono (dx dy : Int) (s : GState) (t : Int × Int) (a b : Int)
    (h : (s.cell a b).assoc = true) :
    ((expandAdd dx dy s t).cell a b).assoc = true := by
  rw [expandAdd]
  split
  · exact assocTile_assoc_mono s t.1 t.2 dx dy a b h
  · split
    · exact assocTile_assoc_mono s t.1 t.2 dx dy a b h
    · exact assocTile_assoc_mono _ _ _ dx dy a b (assocTile_assoc_mono s t.1 t.2 dx dy a b h)

theorem scanFold_assoc_mono (dx dy a b : Int) :
    ∀ (l : List (Int × Int)) (s : GState), (s.cell a b).assoc = true →
      ((l.foldl (scanStep dx dy) s).cell a b).assoc = true := by
  intro l
  induction l with
  | nil => intro s h; exact h
  | cons t l ih =>
    intro s h
    rw [List.foldl_cons]
    exact ih _ (scanStep_assoc_mono dx dy s t a b h)

theorem expandFold_assoc_mono (dx dy a b : Int) :
    ∀ (l : List (Int × Int)) (s : GState), (s.cell a b).assoc = true →
      ((l.foldl (expandAdd dx dy) s).cell a b).assoc = true := by
  intro l
  induction l with
  | nil => intro s h; exact h
  | cons t l ih =>
    intro s h
    rw [List.foldl_cons]
    exact ih _ (expandAdd_assoc_mono dx dy s t a b h)

theorem expandAdd_self_assoc (dx dy : Int) (s : GState) (t : Int × Int) :
    ((expandAdd dx dy s t).cell t.1 t.2).assoc = true := by
  rw [expandAdd]
  have h1 : ((assocTile s t.1 t.2 dx dy).cell t.1 t.2).assoc = true := by
    rw [assocTile_cell_assoc, if_pos ⟨rfl, rfl⟩]
  split
  · exact h1
  · split
    · exact h1
    · exact assocTile_assoc_mono _ _ _ dx dy t.1 t.2 h1

theorem expandFold_assoc_at (dx dy : Int) :
    ∀ (l : List (Int × Int)) (s : GState), ∀ t ∈ l,
      ((l.foldl (expandAdd dx dy) s).cell t.1 t.2).assoc = true := by
  intro l
  induction l with
  | nil => intro s t ht; exact absurd ht (List.not_mem_nil _)
  | cons t0 l ih =>
    intro s t ht
    rw [List.foldl_cons]
    rcases List.mem_cons.mp ht with rfl | htl
    · exact expandFold_assoc_mono dx dy t.1 t.2 l _ (expandAdd_self_assoc dx dy s t)
    · exact ih _ t htl

theorem expandAdd_opp_assoc (dx dy : Int) (s : GState) (t o : Int × Int)
    (heq : space_opposite_dot (assocTile s t.1 t.2 dx dy) t.1 t.2 dx dy = some o) :
    ((expandAdd dx dy s t).cell o.1 o.2).assoc = true := by
  rw [expandAdd, heq]
  dsimp only
  split
  · rename_i h
    exact h
  · rw [assocTile_cell_assoc, if_pos ⟨rfl, rfl⟩]

theorem expandFold_opp_assoc (dx dy : Int) (s0 : GState) :
    ∀ (l : List (Int × Int)) (s : GState), s.w = s0.w → s.h = s0.h →
      ∀ t ∈ l, ∀ o : Int × Int, space_opposite_dot s0 t.1 t.2 dx dy = some o →
      ((l.foldl (expandAdd dx dy) s).cell o.1 o.2).assoc = true := by
  intro l
  induction l with
  | nil => intro s _ _ t ht; exact absurd ht (List.not_mem_nil _)
  | cons t0 l ih =>
    intro s hw hh t ht o heq
    rw [List.foldl_cons]
    have hp := expandAdd_pres dx dy s t0
    rcases List.mem_cons.mp ht with rfl | htl
    · apply expandFold_assoc_mono dx dy o.1 o.2 l
      apply expandAdd_opp_assoc dx dy s t o
      exact (space_opposite_congr s0 (assocTile s t.1 t.2 dx dy) hw hh t.1 t.2 dx dy).trans heq
    · exact ih (expandAdd dx dy s t0) (by rw [hp.1, hw]) (by rw [hp.2, hh]) t htl o heq

/-- Cells either end associated to `(dx,dy)` or keep their original
association fields: every write the expansion and the propagator make
targets this dot. -/
def PExt (s0 s : GState) (dx dy : Int) : Prop :=
  ∀ a b : Int,
    ((s.cell a b).assoc = true ∧ (s.cell a b).dotx = dx ∧ (s.cell a b).doty = dy) ∨
    ((s.cell a b).assoc = (s0.cell a b).assoc ∧ (s.cell a b).dotx = (s0.cell a b).dotx ∧
      (s.cell a b).doty = (s0.cell a b).doty)

theorem PExt_refl (s : GState) (dx dy : Int) : PExt s s dx dy :=
  fun _ _ => Or.inr ⟨rfl, rfl, rfl⟩

theorem assocTile_PExt (s0 s : GState) (tx ty dx dy : Int) (h : PExt s0 s dx dy) :
    PExt s0 (assocTile s tx ty dx dy) dx dy := by
  intro a b
  rw [assocTile_cell_assoc, assocTile_cell_dotx, assocTile_cell_doty]
  by_cases hc : a = tx ∧ b = ty
  · rw [if_pos hc, if_pos hc, if_pos hc]
    left
    exact ⟨rfl, rfl, rfl⟩
  · rw [if_neg hc, if_neg hc, if_neg hc]
    exact h a b

theorem scanStep_PExt (s0 : GState) (dx dy : Int) (s : GState) (t : Int × Int)
    (h : PExt s0 s dx dy) : PExt s0 (scanStep dx dy s t) dx dy := by
  rw [scanStep]
  split
  · exact h
  · split
    · exact h
    · split
      · exact h
      · dsimp only
        split
        · exact assocTile_PExt s0 s t.1 t.2 dx dy h
        · exact assocTile_PExt s0 _ _ _ dx dy (assocTile_PExt s0 s t.1 t.2 dx dy h)

theorem expandAdd_PExt (s0 : GState) (dx dy : Int) (s : GState) (t : Int × Int)
    (h : PExt s0 s dx dy) : PExt s0 (expandAdd dx dy s t) dx dy := by
  rw [expandAdd]
  split
  · exact assocTile_PExt s0 s t.1 t.2 dx dy h
  · split
    · exact assocTile_PExt s0 s t.1 t.2 dx dy h
    · exact assocTile_PExt s0 _ _ _ dx dy (assocTile_PExt s0 s t.1 t.2 dx dy h)

theorem scanFold_PExt (s0 : GState) (dx dy : Int) :
    ∀ (l : List (Int × Int)) (s : GState), PExt s0 s dx dy →
      PExt s0 (l.foldl (scanStep dx dy) s) dx dy := by
  intro l
  induction l with
  | nil => intro s h; exact h
  | cons t l ih =>
    intro s h
    rw [List.foldl_cons]
    exact ih _ (scanStep_PExt s0 dx dy s t h)

theorem expandFold_PExt (s0 : GState) (dx dy : Int) :
    ∀ (l : List (Int × Int)) (s : GState), PExt s0 s dx dy →
      PExt s0 (l.foldl (expandAdd dx dy) s) dx dy := by
  intro l
  induction l with
  | nil => intro s h; exact h
  | cons t l ih =>
    intro s h
    rw [List.foldl_cons]
    exact ih _ (expandAdd_PExt s0 dx dy s t h)

/-- C6: `dot_expand_or_move(D, toadd)` returns `false` with the state
untouched as soon as some proposed tile's mirror about D is out of bounds
or owned by another dot; otherwise it returns `true`, associates every
`toadd[i]` and (the state of) every mirror to D, and — under the
generator's call discipline — keeps the `nassoc` accounting invariant,
after running `solver_obvious_dot(D)`. -/
theorem claim_C6_theorem (s : GState) (dx dy : Int) (toadd : List (Int × Int)) :
    ((∃ t ∈ toadd, oppBad s dx dy t) →
      dot_expand_or_move s dx dy toadd = (false, s)) ∧
    ((∀ t ∈ toadd, ¬ oppBad s dx dy t) →
      (dot_expand_or_move s dx dy toadd).1 = true ∧
      ((∀ u ∈ toadd, (s.cell u.1 u.2).assoc = false) →
        ∀ t ∈ toadd,
          (((dot_expand_or_move s dx dy toadd).2.cell t.1 t.2).assoc = true ∧
           ((dot_expand_or_move s dx dy toadd).2.cell t.1 t.2).dotx = dx ∧
           ((dot_expand_or_move s dx dy toadd).2.cell t.1 t.2).doty = dy) ∧
          ∀ o : Int × Int, space_opposite_dot s t.1 t.2 dx dy = some o →
            ((dot_expand_or_move s dx dy toadd).2.cell o.1 o.2).assoc = true ∧
            ((dot_expand_or_move s dx dy toadd).2.cell o.1 o.2).dotx = dx ∧
            ((dot_expand_or_move s dx dy toadd).2.cell o.1 o.2).doty = dy) ∧
      (toadd.Nodup →
       (∀ u ∈ toadd, u ∈ tileScanList s ∧ (s.cell u.1 u.2).assoc = false) →
       (∀ t ∈ toadd, ∀ u ∈ toadd, t ≠ u → u ≠ (dx + (dx - t.1), dy + (dy - t.2))) →
       GenInv s → GenInv (dot_expand_or_move s dx dy toadd).2)) := by
  constructor
  · rintro ⟨t, ht, hbad⟩
    have hct : expandCheck s dx dy t = false := (expandCheck_eq_false_iff s dx dy t).mpr hbad
    have hcond : toadd.all (expandCheck s dx dy) = false := by
      cases hall : toadd.all (expandCheck s dx dy) with
      | false => rfl
      | true =>
        exfalso
        have hx := List.all_eq_true.mp hall t ht
        rw [hct] at hx
        exact Bool.noConfusion hx
    rw [dot_expand_or_move, if_pos hcond]
  · intro hgood
    have hall : toadd.all (expandCheck s dx dy) = true := by
      apply List.all_eq_true.mpr
      intro t ht
      cases hb : expandCheck s dx dy t with
      | false => exact absurd ((expandCheck_eq_false_iff s dx dy t).mp hb) (hgood t ht)
      | true => rfl
    have hne : ¬ (toadd.all (expandCheck s dx dy) = false) := by
      rw [hall]
      exact fun hc => Bool.noConfusion hc
    rw [dot_expand_or_move, if_neg hne]
    dsimp only
    have hPExt : PExt s (solver_obvious_dot (toadd.foldl (expandAdd dx dy) s) dx dy) dx dy := by
      rw [solver_obvious_dot]
      exact scanFold_PExt s dx dy _ _ (expandFold_PExt s dx dy toadd s (PExt_refl s dx dy))
    refine ⟨rfl, ?_, ?_⟩
    · intro hun t ht
      constructor
      · have hassoc :
            ((solver_obvious_dot (toadd.foldl (expandAdd dx dy) s) dx dy).cell t.1 t.2).assoc
              = true := by
          rw [solver_obvious_dot]
          exact scanFold_assoc_mono dx dy t.1 t.2 _ _ (expandFold_assoc_at dx dy toadd s t ht)
        rcases hPExt t.1 t.2 with hL | hR
        · exact hL
        · exfalso
          rw [hassoc, hun t ht] at hR
          exact Bool.noConfusion hR.1
      · intro o heq
        have hassoc :
            ((solver_obvious_dot (toadd.foldl (expandAdd dx dy) s) dx dy).cell o.1 o.2).assoc
              = true := by
          rw [solver_obvious_dot]
          apply scanFold_assoc_mono
          exact expandFold_opp_assoc dx dy s toadd s rfl rfl t ht o heq
        rcases hPExt o.1 o.2 with hL | hR
        · exact hL
        · cases hso : (s.cell o.1 o.2).assoc with
          | false =>
            exfalso
            rw [hassoc, hso] at hR
            exact Bool.noConfusion hR.1
          | true =>
            have howner : (s.cell o.1 o.2).dotx = dx ∧ (s.cell o.1 o.2).doty = dy := by
              by_contra hc
              apply hgood t ht
              right
              refine ⟨o, heq, hso, ?_⟩
              by_cases h1 : (s.cell o.1 o.2).dotx = dx
              · right
                intro h2
                exact hc ⟨h1, h2⟩
              · left
                exact h1
            exact ⟨hassoc, hR.2.1.trans howner.1, hR.2.2.trans howner.2⟩
    · intro hnd hmem hmir hInv
      exact (sod_inv _ dx dy (expandFold_inv dx dy s toadd s hInv rfl rfl hnd hmem hmir).1).1

theorem claim_C6_theorem_witness :
    dot_expand_or_move (clear_game (blank_game 2 1)) 4 1 [(3, 1)] =
      (false, clear_game (blank_game 2 1)) ∧
    (dot_expand_or_move (add_dot (clear_game (blank_game 2 1)) 2 1) 2 1 [(1, 1)]).1 = true ∧
    ((dot_expand_or_move (add_dot (clear_game (blank_game 2 1)) 2 1) 2 1
        [(1, 1)]).2.cell 1 1).dotx = 2 ∧
    ((dot_expand_or_move (add_dot (clear_game (blank_game 2 1)) 2 1) 2 1
        [(1, 1)]).2.cell 3 1).assoc = true := by
  have hgood : ∀ t ∈ [((1 : Int), (1 : Int))],
      ¬ oppBad (add_dot (clear_game (blank_game 2 1)) 2 1) 2 1 t := by
    intro t ht
    rw [List.mem_singleton] at ht
    subst ht
    intro hbad
    have hx : space_opposite_dot (add_dot (clear_game (blank_game 2 1)) 2 1) 1 1 2 1 =
        some (3, 1) := by decide
    rcases hbad with h | ⟨o, ho, hassoc, _⟩
    · rw [hx] at h
      exact Option.noConfusion h
    · rw [hx] at ho
      injection ho with ho'
      subst ho'
      have hf : ((add_dot (clear_game (blank_game 2 1)) 2 1).cell 3 1).assoc = false := by
        decide
      exact Bool.noConfusion (hf.symm.trans hassoc)
  have h2 := (claim_C6_theorem (add_dot (clear_game (blank_game 2 1)) 2 1) 2 1 [(1, 1)]).2 hgood
  have hun : ∀ u ∈ [((1 : Int), (1 : Int))],
      ((add_dot (clear_game (blank_game 2 1)) 2 1).cell u.1 u.2).assoc = false := by
    intro u hu
    rw [List.mem_singleton] at hu
    subst hu
    decide
  have htr := h2.2.1 hun (1, 1) (List.mem_singleton.mpr rfl)
  refine ⟨?_, h2.1, htr.1.2.1, (htr.2 (3, 1) (by decide)).1⟩
  exact (claim_C6_theorem (clear_game (blank_game 2 1)) 4 1 [(3, 1)]).1
    ⟨(3, 1), List.mem_singleton.mpr rfl, Or.inl (by decide)⟩

/-! ### C7: the border-derivation pass (outline_tile_fordot) -/

/-- The direction table `dxs/dys` of `outline_tile_fordot`, in loop
order. -/
def outlineDirs : List (Int × Int) := [(-1, 0), (1, 0), (0, -1), (0, 1)]

/-- The `same` computation of `outline_tile_fordot` for the tile at
`(x,y)` against the tile at `(tx,ty)`: 0 when the neighbour is off grid;
otherwise for an unassociated tile, 1 iff the neighbour is unassociated,
and for an associated tile, 1 iff the neighbour is associated to the same
dot coordinates. -/
def sameSide (s : GState) (x y tx ty : Int) : Bool :=
  if GINGRID s tx ty = true then
    (if (s.cell x y).assoc = true then
      decide ((s.cell tx ty).assoc = true ∧ (s.cell x y).dotx = (s.cell tx ty).dotx ∧
        (s.cell x y).doty = (s.cell tx ty).doty)
    else ! (s.cell tx ty).assoc)
  else false

/-- Write the `F_EDGE_SET` flag of one cell. -/
def setEdge (s : GState) (x y : Int) (v : Bool) : GState :=
  setCell s x y (fun c => { c with edgeSet := v })

/-- One direction's body of `outline_tile_fordot` with `mark` set: skip an
off-grid edge cell; set the edge flag when it is clear and the sides
differ, clear it when it is set and the sides agree. -/
def outlineDirStep (s : GState) (t d : Int × Int) : GState :=
  if GINGRID s (t.1 + d.1) (t.2 + d.2) = true then
    (if (s.cell (t.1 + d.1) (t.2 + d.2)).edgeSet = false ∧
        sameSide s t.1 t.2 (t.1 + d.1 + d.1) (t.2 + d.2 + d.2) = false then
      setEdge s (t.1 + d.1) (t.2 + d.2) true
    else if (s.cell (t.1 + d.1) (t.2 + d.2)).edgeSet = true ∧
        sameSide s t.1 t.2 (t.1 + d.1 + d.1) (t.2 + d.2 + d.2) = true then
      setEdge s (t.1 + d.1) (t.2 + d.2) false
    else s)
  else s

/-- `outline_tile_fordot(state, tile, TRUE)`: the four direction bodies in
order. -/
def outline_tile_fordot (s : GState) (t : Int × Int) : GState :=
  outlineDirs.foldl (fun s2 d => outlineDirStep s2 t d) s

/-- The caller tile order in `generate_new_game`: grid index ascending,
i.e. `y` outer, `x` inner. -/
def tilesRM (s : GState) : List (Int × Int) :=
  (List.range s.h).flatMap fun j =>
    (List.range s.w).map fun i => (Int.ofNat (2 * i + 1), Int.ofNat (2 * j + 1))

/-- The outline pass of `generate_new_game`: `outline_tile_fordot` over
every tile, in grid-index order. -/
def outlinePass (s : GState) : GState :=
  (tilesRM s).foldl outline_tile_fordot s

theorem mem_tilesRM (s : GState) (a b : Int) :
    (a, b) ∈ tilesRM s ↔
      (0 ≤ a ∧ a < gsx s ∧ 0 ≤ b ∧ b < gsy s ∧ a % 2 = 1 ∧ b % 2 = 1) := by
  rw [tilesRM, gsx, gsy]
  constructor
  · intro hh
    obtain ⟨j, hj, hmem⟩ := List.mem_flatMap.mp hh
    obtain ⟨i, hi, hne⟩ := List.mem_map.mp hmem
    simp only [Prod.mk.injEq, Int.ofNat_eq_coe] at hne
    have h1 := List.mem_range.mp hj
    have h2 := List.mem_range.mp hi
    obtain ⟨he1, he2⟩ := hne
    omega
  · intro hb
    apply List.mem_flatMap.mpr
    refine ⟨b.toNat / 2, List.mem_range.mpr (by omega), ?_⟩
    apply List.mem_map.mpr
    refine ⟨a.toNat / 2, List.mem_range.mpr (by omega), ?_⟩
    simp only [Prod.mk.injEq, Int.ofNat_eq_coe]
    omega

/-- Dimension- and association-field agreement between two states: all
the data `sameSide` and the tile scan read. -/
def fieldsEq (s2 s : GState) : Prop :=
  s2.w = s.w ∧ s2.h = s.h ∧
    ∀ a b : Int, (s2.cell a b).assoc = (s.cell a b).assoc ∧
      (s2.cell a b).dotx = (s.cell a b).dotx ∧ (s2.cell a b).doty = (s.cell a b).doty

theorem fieldsEq_refl (s : GState) : fieldsEq s s :=
  ⟨rfl, rfl, fun _ _ => ⟨rfl, rfl, rfl⟩⟩

theorem fieldsEq_trans (s3 s2 s : GState) (h32 : fieldsEq s3 s2) (h21 : fieldsEq s2 s) :
    fieldsEq s3 s :=
  ⟨h32.1.trans h21.1, h32.2.1.trans h21.2.1, fun a b =>
    ⟨((h32.2.2 a b).1).trans ((h21.2.2 a b).1),
     ((h32.2.2 a b).2.1).trans ((h21.2.2 a b).2.1),
     ((h32.2.2 a b).2.2).trans ((h21.2.2 a b).2.2)⟩⟩

theorem GINGRID_fieldsEq (s2 s : GState) (h : fieldsEq s2 s) (a b : Int) :
    GINGRID s2 a b = GINGRID s a b := GINGRID_congr s s2 h.1 h.2.1 a b

theorem sameSide_fieldsEq (s2 s : GState) (h : fieldsEq s2 s) (x y tx ty : Int) :
    sameSide s2 x y tx ty = sameSide s x y tx ty := by
  rw [sameSide, sameSide, GINGRID_fieldsEq s2 s h,
    (h.2.2 x y).1, (h.2.2 tx ty).1, (h.2.2 x y).2.1, (h.2.2 tx ty).2.1,
    (h.2.2 x y).2.2, (h.2.2 tx ty).2.2]

theorem setEdge_cell_edgeSet (s : GState) (x y : Int) (v : Bool) (a b : Int) :
    ((setEdge s x y v).cell a b).edgeSet =
      if a = x ∧ b = y then v else (s.cell a b).edgeSet := by
  rw [setEdge, setCell_eval]
  split
  · rfl
  · rfl

theorem setEdge_fieldsEq (s : GState) (x y : Int) (v : Bool) :
    fieldsEq (setEdge s x y v) s := by
  refine ⟨rfl, rfl, fun a b => ?_⟩
  rw [setEdge, setCell_eval]
  split
  · rename_i h
    rw [h.1, h.2]
    exact ⟨rfl, rfl, rfl⟩
  · exact ⟨rfl, rfl, rfl⟩

theorem outlineDirStep_fieldsEq (s : GState) (t d : Int × Int) :
    fieldsEq (outlineDirStep s t d) s := by
  rw [outlineDirStep]
  split
  · split
    · exact setEdge_fieldsEq s _ _ true
    · split
      · exact setEdge_fieldsEq s _ _ false
      · exact fieldsEq_refl s
  · exact fieldsEq_refl s

theorem otf_eq (s : GState) (t : Int × Int) :
    outline_tile_fordot s t =
      outlineDirStep (outlineDirStep (outlineDirStep (outlineDirStep s t (-1, 0))
        t (1, 0)) t (0, -1)) t (0, 1) := rfl

theorem otf_fieldsEq (s : GState) (t : Int × Int) :
    fieldsEq (outline_tile_fordot s t) s := by
  rw [otf_eq]
  exact fieldsEq_trans _ _ _ (outlineDirStep_fieldsEq _ t (0, 1))
    (fieldsEq_trans _ _ _ (outlineDirStep_fieldsEq _ t (0, -1))
      (fieldsEq_trans _ _ _ (outlineDirStep_fieldsEq _ t (1, 0))
        (outlineDirStep_fieldsEq s t (-1, 0))))

/-- The value a direction body leaves in its edge cell: the negation of
`same`, whether or not it had to write. -/
theorem outlineDirStep_edge (s : GState) (t d : Int × Int)
    (hg : GINGRID s (t.1 + d.1) (t.2 + d.2) = true) :
    ((outlineDirStep s t d).cell (t.1 + d.1) (t.2 + d.2)).edgeSet =
      ! sameSide s t.1 t.2 (t.1 + d.1 + d.1) (t.2 + d.2 + d.2) := by
  rw [outlineDirStep, if_pos hg]
  by_cases h1 : (s.cell (t.1 + d.1) (t.2 + d.2)).edgeSet = false ∧
      sameSide s t.1 t.2 (t.1 + d.1 + d.1) (t.2 + d.2 + d.2) = false
  · rw [if_pos h1, setEdge_cell_edgeSet, if_pos ⟨rfl, rfl⟩, h1.2]
    rfl
  · rw [if_neg h1]
    by_cases h2 : (s.cell (t.1 + d.1) (t.2 + d.2)).edgeSet = true ∧
        sameSide s t.1 t.2 (t.1 + d.1 + d.1) (t.2 + d.2 + d.2) = true
    · rw [if_pos h2, setEdge_cell_edgeSet, if_pos ⟨rfl, rfl⟩, h2.2]
      rfl
    · rw [if_neg h2]
      cases hE : (s.cell (t.1 + d.1) (t.2 + d.2)).edgeSet <;>
        cases hS : sameSide s t.1 t.2 (t.1 + d.1 + d.1) (t.2 + d.2 + d.2)
      · exact absurd ⟨hE, hS⟩ h1
      · rfl
      · rfl
      · exact absurd ⟨hE, hS⟩ h2

theorem outlineDirStep_other (s : GState) (t d : Int × Int) (a b : Int)
    (hne : ¬(a = t.1 + d.1 ∧ b = t.2 + d.2)) :
    ((outlineDirStep s t d).cell a b).edgeSet = (s.cell a b).edgeSet := by
  rw [outlineDirStep]
  split
  · split
    · rw [setEdge_cell_edgeSet, if_neg hne]
    · split
      · rw [setEdge_cell_edgeSet, if_neg hne]
      · rfl
  · rfl

/-- A direction body whose edge cell already holds `!same` does nothing at
all. -/
theorem outlineDirStep_noop (s : GState) (t d : Int × Int)
    (h : GINGRID s (t.1 + d.1) (t.2 + d.2) = true →
      (s.cell (t.1 + d.1) (t.2 + d.2)).edgeSet =
        ! sameSide s t.1 t.2 (t.1 + d.1 + d.1) (t.2 + d.2 + d.2)) :
    outlineDirStep s t d = s := by
  rw [outlineDirStep]
  split
  · rename_i hg
    have he := h hg
    have h1 : ¬((s.cell (t.1 + d.1) (t.2 + d.2)).edgeSet = false ∧
        sameSide s t.1 t.2 (t.1 + d.1 + d.1) (t.2 + d.2 + d.2) = false) := by
      rintro ⟨hE, hS⟩
      rw [hS, hE] at he
      exact Bool.noConfusion he
    have h2 : ¬((s.cell (t.1 + d.1) (t.2 + d.2)).edgeSet = true ∧
        sameSide s t.1 t.2 (t.1 + d.1 + d.1) (t.2 + d.2 + d.2) = true) := by
      rintro ⟨hE, hS⟩
      rw [hS, hE] at he
      exact Bool.noConfusion he
    rw [if_neg h1, if_neg h2]
  · rfl

/-- `same` is symmetric between two in-grid tiles. -/
theorem sameSide_symm (s : GState) (x y tx ty : Int)
    (hg1 : GINGRID s x y = true) (hg2 : GINGRID s tx ty = true) :
    sameSide s x y tx ty = sameSide s tx ty x y := by
  rw [sameSide, sameSide, if_pos hg2, if_pos hg1]
  by_cases h1 : (s.cell x y).assoc = true
  · by_cases h2 : (s.cell tx ty).assoc = true
    · rw [if_pos h1, if_pos h2, decide_eq_decide]
      constructor
      · rintro ⟨_, a, b⟩
        exact ⟨h1, a.symm, b.symm⟩
      · rintro ⟨_, a, b⟩
        exact ⟨h2, a.symm, b.symm⟩
    · rw [if_pos h1, if_neg h2, decide_eq_false (fun hc => h2 hc.1), h1]
      rfl
  · by_cases h2 : (s.cell tx ty).assoc = true
    · rw [if_neg h1, if_pos h2, h2, decide_eq_false (fun hc => h1 hc.1)]
      rfl
    · have e1 : (s.cell x y).assoc = false := by
        revert h1
        cases (s.cell x y).assoc <;> simp
      have e2 : (s.cell tx ty).assoc = false := by
        revert h2
        cases (s.cell tx ty).assoc <;> simp
      rw [if_neg h1, if_neg h2, e1, e2]

/-- The edge value a whole tile body leaves in each of its four edge
cells. -/
theorem otf_edge (s : GState) (t d : Int × Int) (hd : d ∈ outlineDirs)
    (hg : GINGRID s (t.1 + d.1) (t.2 + d.2) = true) :
    ((outline_tile_fordot s t).cell (t.1 + d.1) (t.2 + d.2)).edgeSet =
      ! sameSide s t.1 t.2 (t.1 + d.1 + d.1) (t.2 + d.2 + d.2) := by
  have hd4 : d = (-1, 0) ∨ d = (1, 0) ∨ d = (0, -1) ∨ d = (0, 1) := by
    simpa [outlineDirs] using hd
  rw [otf_eq]
  rcases hd4 with rfl | rfl | rfl | rfl
  · exact (outlineDirStep_other _ t (0, 1) _ _ (by intro hc; simp at hc)).trans
      ((outlineDirStep_other _ t (0, -1) _ _ (by intro hc; simp at hc)).trans
        ((outlineDirStep_other _ t (1, 0) _ _ (by intro hc; simp at hc)).trans
          (outlineDirStep_edge s t (-1, 0) hg)))
  · have f1 : fieldsEq (outlineDirStep s t (-1, 0)) s := outlineDirStep_fieldsEq s t (-1, 0)
    refine (outlineDirStep_other _ t (0, 1) _ _ (by intro hc; simp at hc)).trans
      ((outlineDirStep_other _ t (0, -1) _ _ (by intro hc; simp at hc)).trans
        ((outlineDirStep_edge _ t (1, 0) (by rw [GINGRID_fieldsEq _ s f1]; exact hg)).trans
          ?_))
    exact congrArg Bool.not (sameSide_fieldsEq _ s f1 t.1 t.2 _ _)
  · have f2 : fieldsEq (outlineDirStep (outlineDirStep s t (-1, 0)) t (1, 0)) s :=
      fieldsEq_trans _ _ _ (outlineDirStep_fieldsEq _ t (1, 0))
        (outlineDirStep_fieldsEq s t (-1, 0))
    refine (outlineDirStep_other _ t (0, 1) _ _ (by intro hc; simp at hc)).trans
      ((outlineDirStep_edge _ t (0, -1) (by rw [GINGRID_fieldsEq _ s f2]; exact hg)).trans ?_)
    exact congrArg Bool.not (sameSide_fieldsEq _ s f2 t.1 t.2 _ _)
  · have f3 : fieldsEq (outlineDirStep (outlineDirStep (outlineDirStep s t (-1, 0))
        t (1, 0)) t (0, -1)) s :=
      fieldsEq_trans _ _ _ (outlineDirStep_fieldsEq _ t (0, -1))
        (fieldsEq_trans _ _ _ (outlineDirStep_fieldsEq _ t (1, 0))
          (outlineDirStep_fieldsEq s t (-1, 0)))
    refine (outlineDirStep_edge _ t (0, 1) (by rw [GINGRID_fieldsEq _ s f3]; exact hg)).trans ?_
    exact congrArg Bool.not (sameSide_fieldsEq _ s f3 t.1 t.2 _ _)

theorem otf_other (s : GState) (t : Int × Int) (a b : Int)
    (h : ∀ d ∈ outlineDirs, ¬(a = t.1 + d.1 ∧ b = t.2 + d.2)) :
    ((outline_tile_fordot s t).cell a b).edgeSet = (s.cell a b).edgeSet := by
  rw [otf_eq]
  exact (outlineDirStep_other _ t (0, 1) a b (h (0, 1) (by simp [outlineDirs]))).trans
    ((outlineDirStep_other _ t (0, -1) a b (h (0, -1) (by simp [outlineDirs]))).trans
      ((outlineDirStep_other _ t (1, 0) a b (h (1, 0) (by simp [outlineDirs]))).trans
        (outlineDirStep_other _ t (-1, 0) a b (h (-1, 0) (by simp [outlineDirs])))))

/-- Two tile/direction pairs writing the same edge cell write the same
value: either they are the same pair, or the two flanking tiles of the
edge, whose `same` computations agree by symmetry. -/
theorem edge_writer_agree (s0 : GState) (t0 u : Int × Int) (d d2 : Int × Int)
    (hd : d ∈ outlineDirs) (hd2 : d2 ∈ outlineDirs)
    (ht0 : t0 ∈ tileScanList s0) (hu : u ∈ tileScanList s0)
    (he1 : u.1 + d2.1 = t0.1 + d.1) (he2 : u.2 + d2.2 = t0.2 + d.2) :
    sameSide s0 u.1 u.2 (u.1 + d2.1 + d2.1) (u.2 + d2.2 + d2.2) =
      sameSide s0 t0.1 t0.2 (t0.1 + d.1 + d.1) (t0.2 + d.2 + d.2) := by
  have htg := (mem_tileScanList s0 t0.1 t0.2).mp (by rwa [Prod.mk.eta])
  have hug := (mem_tileScanList s0 u.1 u.2).mp (by rwa [Prod.mk.eta])
  have hgt : GINGRID s0 t0.1 t0.2 = true :=
    decide_eq_true ⟨htg.1, htg.2.1, htg.2.2.1, htg.2.2.2.1⟩
  have hgu : GINGRID s0 u.1 u.2 = true :=
    decide_eq_true ⟨hug.1, hug.2.1, hug.2.2.1, hug.2.2.2.1⟩
  have pt1 : t0.1 % 2 = 1 := htg.2.2.2.2.1
  have pt2 : t0.2 % 2 = 1 := htg.2.2.2.2.2
  have pu1 : u.1 % 2 = 1 := hug.2.2.2.2.1
  have pu2 : u.2 % 2 = 1 := hug.2.2.2.2.2
  have hd4 : d = (-1, 0) ∨ d = (1, 0) ∨ d = (0, -1) ∨ d = (0, 1) := by
    simpa [outlineDirs] using hd
  have hd24 : d2 = (-1, 0) ∨ d2 = (1, 0) ∨ d2 = (0, -1) ∨ d2 = (0, 1) := by
    simpa [outlineDirs] using hd2
  rcases hd4 with rfl | rfl | rfl | rfl <;> rcases hd24 with rfl | rfl | rfl | rfl <;>
    dsimp only at he1 he2 ⊢
  · have e1 : u.1 = t0.1 := by omega
    have e2 : u.2 = t0.2 := by omega
    rw [e1, e2]
  · have e3 : u.1 + 1 + 1 = t0.1 := by omega
    have e4 : u.2 + 0 + 0 = t0.2 := by omega
    have e1 : u.1 = t0.1 + -1 + -1 := by omega
    have e2 : u.2 = t0.2 + 0 + 0 := by omega
    rw [e3, e4, e1, e2]
    have hg2 : GINGRID s0 (t0.1 + -1 + -1) (t0.2 + 0 + 0) = true := by
      rw [← e1, ← e2]
      exact hgu
    exact (sameSide_symm s0 t0.1 t0.2 (t0.1 + -1 + -1) (t0.2 + 0 + 0) hgt hg2).symm
  · exfalso; omega
  · exfalso; omega
  · have e3 : u.1 + -1 + -1 = t0.1 := by omega
    have e4 : u.2 + 0 + 0 = t0.2 := by omega
    have e1 : u.1 = t0.1 + 1 + 1 := by omega
    have e2 : u.2 = t0.2 + 0 + 0 := by omega
    rw [e3, e4, e1, e2]
    have hg2 : GINGRID s0 (t0.1 + 1 + 1) (t0.2 + 0 + 0) = true := by
      rw [← e1, ← e2]
      exact hgu
    exact (sameSide_symm s0 t0.1 t0.2 (t0.1 + 1 + 1) (t0.2 + 0 + 0) hgt hg2).symm
  · have e1 : u.1 = t0.1 := by omega
    have e2 : u.2 = t0.2 := by omega
    rw [e1, e2]
  · exfalso; omega
  · exfalso; omega
  · exfalso; omega
  · exfalso; omega
  · have e1 : u.1 = t0.1 := by omega
    have e2 : u.2 = t0.2 := by omega
    rw [e1, e2]
  · have e3 : u.1 + 0 + 0 = t0.1 := by omega
    have e4 : u.2 + 1 + 1 = t0.2 := by omega
    have e1 : u.1 = t0.1 + 0 + 0 := by omega
    have e2 : u.2 = t0.2 + -1 + -1 := by omega
    rw [e3, e4, e1, e2]
    have hg2 : GINGRID s0 (t0.1 + 0 + 0) (t0.2 + -1 + -1) = true := by
      rw [← e1, ← e2]
      exact hgu
    exact (sameSide_symm s0 t0.1 t0.2 (t0.1 + 0 + 0) (t0.2 + -1 + -1) hgt hg2).symm
  · exfalso; omega
  · exfalso; omega
  · have e3 : u.1 + 0 + 0 = t0.1 := by omega
    have e4 : u.2 + -1 + -1 = t0.2 := by omega
    have e1 : u.1 = t0.1 + 0 + 0 := by omega
    have e2 : u.2 = t0.2 + 1 + 1 := by omega
    rw [e3, e4, e1, e2]
    have hg2 : GINGRID s0 (t0.1 + 0 + 0) (t0.2 + 1 + 1) = true := by
      rw [← e1, ← e2]
      exact hgu
    exact (sameSide_symm s0 t0.1 t0.2 (t0.1 + 0 + 0) (t0.2 + 1 + 1) hgt hg2).symm
  · have e1 : u.1 = t0.1 := by omega
    have e2 : u.2 = t0.2 := by omega
    rw [e1, e2]

theorem outlineFold_fieldsEq :
    ∀ (l : List (Int × Int)) (s : GState), fieldsEq (l.foldl outline_tile_fordot s) s := by
  intro l
  induction l with
  | nil => intro s; exact fieldsEq_refl s
  | cons t l ih =>
    intro s
    rw [List.foldl_cons]
    exact fieldsEq_trans _ _ _ (ih _) (otf_fieldsEq s t)

theorem outlineFold_keep (s0 : GState) (d : Int × Int) (t0 : Int × Int)
    (hd : d ∈ outlineDirs) (ht0 : t0 ∈ tileScanList s0)
    (hg : GINGRID s0 (t0.1 + d.1) (t0.2 + d.2) = true) :
    ∀ (l : List (Int × Int)) (s : GState), fieldsEq s s0 →
      (∀ u ∈ l, u ∈ tileScanList s0) →
      (s.cell (t0.1 + d.1) (t0.2 + d.2)).edgeSet =
        ! sameSide s0 t0.1 t0.2 (t0.1 + d.1 + d.1) (t0.2 + d.2 + d.2) →
      ((l.foldl outline_tile_fordot s).cell (t0.1 + d.1) (t0.2 + d.2)).edgeSet =
        ! sameSide s0 t0.1 t0.2 (t0.1 + d.1 + d.1) (t0.2 + d.2 + d.2) := by
  intro l
  induction l with
  | nil => intro s _ _ hval; exact hval
  | cons u l ih =>
    intro s hF hmem hval
    rw [List.foldl_cons]
    have hF2 : fieldsEq (outline_tile_fordot s u) s0 :=
      fieldsEq_trans _ _ _ (otf_fieldsEq s u) hF
    apply ih _ hF2 (fun v hv => hmem v (List.mem_cons_of_mem _ hv))
    by_cases htouch : ∃ d2 ∈ outlineDirs, t0.1 + d.1 = u.1 + d2.1 ∧ t0.2 + d.2 = u.2 + d2.2
    · obtain ⟨d2, hd2, hco⟩ := htouch
      have hgu : GINGRID s (u.1 + d2.1) (u.2 + d2.2) = true := by
        rw [GINGRID_fieldsEq s s0 hF, ← hco.1, ← hco.2]
        exact hg
      conv_lhs => rw [hco.1, hco.2]
      rw [otf_edge s u d2 hd2 hgu, sameSide_fieldsEq s s0 hF]
      exact congrArg Bool.not (edge_writer_agree s0 t0 u d d2 hd hd2 ht0
        (hmem u (List.mem_cons_self _ _)) hco.1.symm hco.2.symm)
    · have hno : ∀ d2 ∈ outlineDirs,
          ¬(t0.1 + d.1 = u.1 + d2.1 ∧ t0.2 + d.2 = u.2 + d2.2) := by
        intro d2 hd2 hc
        exact htouch ⟨d2, hd2, hc⟩
      rw [otf_other s u _ _ hno]
      exact hval

theorem outlineFold_spec (s0 : GState) :
    ∀ (l : List (Int × Int)) (s : GState), fieldsEq s s0 →
      (∀ u ∈ l, u ∈ tileScanList s0) →
      ∀ t ∈ l, ∀ d ∈ outlineDirs, GINGRID s0 (t.1 + d.1) (t.2 + d.2) = true →
        ((l.foldl outline_tile_fordot s).cell (t.1 + d.1) (t.2 + d.2)).edgeSet =
          ! sameSide s0 t.1 t.2 (t.1 + d.1 + d.1) (t.2 + d.2 + d.2) := by
  intro l
  induction l with
  | nil => intro s _ _ t ht; exact absurd ht (List.not_mem_nil _)
  | cons u l ih =>
    intro s hF hmem t ht d hd hg
    rw [List.foldl_cons]
    have hF2 : fieldsEq (outline_tile_fordot s u) s0 :=
      fieldsEq_trans _ _ _ (otf_fieldsEq s u) hF
    rcases List.mem_cons.mp ht with rfl | htl
    · apply outlineFold_keep s0 d t hd (hmem t (List.mem_cons_self _ _)) hg l _ hF2
        (fun v hv => hmem v (List.mem_cons_of_mem _ hv))
      have hgs : GINGRID s (t.1 + d.1) (t.2 + d.2) = true := by
        rw [GINGRID_fieldsEq s s0 hF]
        exact hg
      rw [otf_edge s t d hd hgs, sameSide_fieldsEq s s0 hF]
    · exact ih _ hF2 (fun v hv => hmem v (List.mem_cons_of_mem _ hv)) t htl d hd hg

theorem tilesRM_congr (s s2 : GState) (hw : s2.w = s.w) (hh : s2.h = s.h) :
    tilesRM s2 = tilesRM s := by
  rw [tilesRM, tilesRM, hw, hh]

theorem outlinePass_fieldsEq (s : GState) : fieldsEq (outlinePass s) s := by
  rw [outlinePass]
  exact outlineFold_fieldsEq _ s

theorem outlinePass_edges (s : GState) :
    ∀ t ∈ tilesRM s, ∀ d ∈ outlineDirs, GINGRID s (t.1 + d.1) (t.2 + d.2) = true →
      ((outlinePass s).cell (t.1 + d.1) (t.2 + d.2)).edgeSet =
        ! sameSide s t.1 t.2 (t.1 + d.1 + d.1) (t.2 + d.2 + d.2) := by
  intro t ht d hd hg
  rw [outlinePass]
  apply outlineFold_spec s (tilesRM s) s (fieldsEq_refl s) ?_ t ht d hd hg
  intro u hu
  have h1 := (mem_tilesRM s u.1 u.2).mp (by rwa [Prod.mk.eta])
  have h2 := (mem_tileScanList s u.1 u.2).mpr h1
  rwa [Prod.mk.eta] at h2

theorem otf_noop (s : GState) (t : Int × Int)
    (h : ∀ d ∈ outlineDirs, GINGRID s (t.1 + d.1) (t.2 + d.2) = true →
      (s.cell (t.1 + d.1) (t.2 + d.2)).edgeSet =
        ! sameSide s t.1 t.2 (t.1 + d.1 + d.1) (t.2 + d.2 + d.2)) :
    outline_tile_fordot s t = s := by
  rw [otf_eq]
  rw [outlineDirStep_noop s t (-1, 0) (h (-1, 0) (by simp [outlineDirs]))]
  rw [outlineDirStep_noop s t (1, 0) (h (1, 0) (by simp [outlineDirs]))]
  rw [outlineDirStep_noop s t (0, -1) (h (0, -1) (by simp [outlineDirs]))]
  rw [outlineDirStep_noop s t (0, 1) (h (0, 1) (by simp [outlineDirs]))]

theorem foldl_otf_noop :
    ∀ (l : List (Int × Int)) (s : GState), (∀ t ∈ l, outline_tile_fordot s t = s) →
      l.foldl outline_tile_fordot s = s := by
  intro l
  induction l with
  | nil => intro s _; rfl
  | cons t l ih =>
    intro s h
    rw [List.foldl_cons, h t (List.mem_cons_self _ _)]
    exact ih s (fun u hu => h u (List.mem_cons_of_mem _ hu))

theorem outlinePass_idem (s : GState) : outlinePass (outlinePass s) = outlinePass s := by
  have hF := outlinePass_fieldsEq s
  rw [outlinePass, tilesRM_congr s (outlinePass s) hF.1 hF.2.1]
  apply foldl_otf_noop
  intro t ht
  apply otf_noop
  intro d hd hgF
  have hg0 : GINGRID s (t.1 + d.1) (t.2 + d.2) = true := by
    rw [← GINGRID_fieldsEq _ s hF]
    exact hgF
  rw [sameSide_fieldsEq _ s hF]
  exact outlinePass_edges s t ht d hd hg0

/-- `same = 0` is exactly the claim condition: neighbour missing, exactly
one side associated, or both associated to different dots. -/
theorem sameSide_eq_false_iff (s : GState) (x y tx ty : Int) :
    sameSide s x y tx ty = false ↔
      (GINGRID s tx ty = false ∨
       (s.cell x y).assoc ≠ (s.cell tx ty).assoc ∨
       ((s.cell x y).assoc = true ∧ (s.cell tx ty).assoc = true ∧
        ((s.cell x y).dotx ≠ (s.cell tx ty).dotx ∨
         (s.cell x y).doty ≠ (s.cell tx ty).doty))) := by
  rw [sameSide]
  by_cases hg : GINGRID s tx ty = true
  · rw [if_pos hg]
    have hgf : ¬(GINGRID s tx ty = false) := by
      rw [hg]
      exact fun hc => Bool.noConfusion hc
    by_cases h1 : (s.cell x y).assoc = true
    · rw [if_pos h1]
      by_cases h2 : (s.cell tx ty).assoc = true
      · constructor
        · intro hdec
          have hnc := of_decide_eq_false hdec
          right; right
          refine ⟨h1, h2, ?_⟩
          by_cases hx : (s.cell x y).dotx = (s.cell tx ty).dotx
          · right
            intro hy
            exact hnc ⟨h2, hx, hy⟩
          · left
            exact hx
        · rintro (hc | hc | ⟨_, _, hc⟩)
          · exact absurd hc hgf
          · exact absurd (h1.trans h2.symm) hc
          · apply decide_eq_false
            rintro ⟨_, hx, hy⟩
            rcases hc with hc | hc
            · exact hc hx
            · exact hc hy
      · have h2f : (s.cell tx ty).assoc = false := by
          revert h2
          cases (s.cell tx ty).assoc <;> simp
        constructor
        · intro _
          right; left
          rw [h1, h2f]
          exact fun hc => Bool.noConfusion hc
        · intro _
          exact decide_eq_false (fun hc => h2 hc.1)
    · have h1f : (s.cell x y).assoc = false := by
        revert h1
        cases (s.cell x y).assoc <;> simp
      rw [if_neg h1]
      by_cases h2 : (s.cell tx ty).assoc = true
      · constructor
        · intro _
          right; left
          rw [h1f, h2]
          exact fun hc => Bool.noConfusion hc
        · intro _
          rw [h2]
          rfl
      · have h2f : (s.cell tx ty).assoc = false := by
          revert h2
          cases (s.cell tx ty).assoc <;> simp
        rw [h2f]
        constructor
        · intro hc
          exact Bool.noConfusion hc
        · rintro (hc | hc | ⟨hc, _, _⟩)
          · exact absurd hc hgf
          · exact absurd h1f hc
          · exact absurd hc h1
  · have hgf : GINGRID s tx ty = false := by
      revert hg
      cases GINGRID s tx ty <;> simp
    rw [if_neg hg]
    exact ⟨fun _ => Or.inl hgf, fun _ => rfl⟩

/-- C7: the outline pass is idempotent (a second full pass returns the
state unchanged), and after one pass the edge cell next to a tile in any
direction is edge-set iff the tile across it is off grid, exactly one of
the two tiles is associated, or both are associated with different
recorded owner coordinates. -/
theorem claim_C7_theorem (s : GState) :
    outlinePass (outlinePass s) = outlinePass s ∧
    ∀ t ∈ tilesRM s, ∀ d ∈ outlineDirs,
      GINGRID s (t.1 + d.1) (t.2 + d.2) = true →
      (((outlinePass s).cell (t.1 + d.1) (t.2 + d.2)).edgeSet = true ↔
        (GINGRID (outlinePass s) (t.1 + d.1 + d.1) (t.2 + d.2 + d.2) = false ∨
         ((outlinePass s).cell t.1 t.2).assoc ≠
           ((outlinePass s).cell (t.1 + d.1 + d.1) (t.2 + d.2 + d.2)).assoc ∨
         (((outlinePass s).cell t.1 t.2).assoc = true ∧
          ((outlinePass s).cell (t.1 + d.1 + d.1) (t.2 + d.2 + d.2)).assoc = true ∧
          (((outlinePass s).cell t.1 t.2).dotx ≠
             ((outlinePass s).cell (t.1 + d.1 + d.1) (t.2 + d.2 + d.2)).dotx ∨
           ((outlinePass s).cell t.1 t.2).doty ≠
             ((outlinePass s).cell (t.1 + d.1 + d.1) (t.2 + d.2 + d.2)).doty)))) := by
  refine ⟨outlinePass_idem s, ?_⟩
  intro t ht d hd hg
  have hF := outlinePass_fieldsEq s
  rw [outlinePass_edges s t ht d hd hg,
    GINGRID_fieldsEq (outlinePass s) s hF (t.1 + d.1 + d.1) (t.2 + d.2 + d.2),
    (hF.2.2 t.1 t.2).1, (hF.2.2 (t.1 + d.1 + d.1) (t.2 + d.2 + d.2)).1,
    (hF.2.2 t.1 t.2).2.1, (hF.2.2 (t.1 + d.1 + d.1) (t.2 + d.2 + d.2)).2.1,
    (hF.2.2 t.1 t.2).2.2, (hF.2.2 (t.1 + d.1 + d.1) (t.2 + d.2 + d.2)).2.2]
  have hiff := sameSide_eq_false_iff s t.1 t.2 (t.1 + d.1 + d.1) (t.2 + d.2 + d.2)
  constructor
  · intro hnot
    apply hiff.mp
    cases hS : sameSide s t.1 t.2 (t.1 + d.1 + d.1) (t.2 + d.2 + d.2) with
    | false => rfl
    | true =>
      rw [hS] at hnot
      exact Bool.noConfusion hnot
  · intro hrhs
    rw [hiff.mpr hrhs]
    rfl

theorem claim_C7_theorem_witness :
    outlinePass (outlinePass (clear_game (blank_game 1 1))) =
      outlinePass (clear_game (blank_game 1 1)) ∧
    ((outlinePass (clear_game (blank_game 1 1))).cell 0 1).edgeSet = true := by
  refine ⟨(claim_C7_theorem (clear_game (blank_game 1 1))).1, ?_⟩
  have h := (claim_C7_theorem (clear_game (blank_game 1 1))).2 (1, 1) (by decide)
    ((-1 : Int), (0 : Int)) (by decide) (by decide)
  exact h.mpr (Or.inl (by decide))
